import Mathlib

/-!
Verification of the Hyper hypercube tic-tac-toe engine.

Shallow embedding of `src/hypercube.py` (coordinate and numpy line
enumeration, scope indexing) and `src/tictactoe.py` (game state machine),
with theorems settling the frozen claims about the specification.

Conventions:
* A Python tuple of cell coordinates is a `List ℤ` (numpy indices may be
  negative, so coordinates are integers).
* A line is a list of cells.
* Python dict/defaultdict indexed by cells becomes a Lean function on cells.
-/

set_option maxRecDepth 100000

abbrev Cell : Type := List ℤ

abbrev Line : Type := List Cell

/-- Cartesian product of a list of lists, in `itertools.product` order
(first factor varies slowest). -/
def listProd {α : Type} : List (List α) → List (List α)
  | [] => [[]]
  | xs :: rest => xs.flatMap (fun x => (listProd rest).map (x :: ·))

/-- `itertools.combinations(l, r)`: all `r`-element sublists of `l`,
in lexicographic order of positions. -/
def combinations {α : Type} : List α → ℕ → List (List α)
  | _, 0 => [[]]
  | [], _ + 1 => []
  | x :: xs, r + 1 => (combinations xs r).map (x :: ·) ++ combinations xs (r + 1)

/-- `hypercube.num_lines_grouped(d, n)`: for `i` in `1..d`,
`comb(d, i) * n^(d-i) * 2^(i-1)`. -/
def num_lines_grouped (d n : ℕ) : List ℕ :=
  (List.range' 1 d).map (fun i => Nat.choose d i * n ^ (d - i) * 2 ^ (i - 1))

/-- `hypercube.num_lines(d, n)`: the closed-form total number of lines. -/
def num_lines (d n : ℕ) : ℕ :=
  (num_lines_grouped d n).sum

/-- `itertools.product([0, n-1], repeat=d)` restricted to corners whose
first coordinate is `0`, as iterated by `get_diagonals_coord`. -/
def corners0 (d n : ℕ) : List Cell :=
  (listProd (List.replicate d [(0 : ℤ), (n : ℤ) - 1])).filter
    (fun corner => corner.headD 1 == 0)

/-- The diagonal anchored at `corner`: the corner itself followed, for
`i` in `range(1, n)`, by the cell `tuple(abs(c - i) for c in corner)`. -/
def diagOf (n : ℕ) (corner : Cell) : Line :=
  corner :: (List.range' 1 (n - 1)).map (fun (i : ℕ) => corner.map (fun c => |c - (i : ℤ)|))

/-- `hypercube.get_diagonals_coord(d, n)`: the `d`-agonals of `h(d, n)`.
`corners_all` is `itertools.product([0, n-1], repeat=d)`; the diagonals are
built from the corners whose first coordinate is `0`. -/
def get_diagonals_coord (d n : ℕ) : List Line :=
  (corners0 d n).map (fun corner => diagOf n corner)

/-- Insertion into a sorted-by-first-component association list
(used to model Python's `sorted(zip(pos, val))`). -/
def insertByFst (p : ℕ × ℤ) : List (ℕ × ℤ) → List (ℕ × ℤ)
  | [] => [p]
  | q :: qs => if p.1 ≤ q.1 then p :: q :: qs else q :: insertByFst p qs

/-- Insertion sort by first component, modelling `sorted(zip(pos, val))`
(positions in our uses are distinct, so ties never matter). -/
def sortByFst : List (ℕ × ℤ) → List (ℕ × ℤ)
  | [] => []
  | p :: ps => insertByFst p (sortByFst ps)

/-- `hypercube.insert_into_tuple(tup, pos, val)`: insert values into a tuple,
at the given positions; the position/value pairs are processed in ascending
position order, each by Python's `list.insert`. -/
def insert_into_tuple (tup : Cell) (pos : List ℕ) (val : List ℤ) : Cell :=
  (sortByFst (pos.zip val)).foldl (fun tl pv => tl.insertIdx pv.1 pv.2) tup

/-- `set(range(d)) - set(i_comb)`, iterated in ascending order (the
iteration order of a CPython set of small ints). -/
def other_dims (d : ℕ) (i_comb : List ℕ) : List ℕ :=
  (List.range d).filter (fun j => !(i_comb.contains j))

/-- `hypercube.get_lines_i_coord(d, n, i)`: the lines spanning `i + 1`
dimensions, flattened: for each `(i+1)`-combination of dimensions, for each
assignment of the remaining dimensions, embed every diagonal of the
`(i+1)`-cube back into full `d`-dimensional coordinates. -/
def get_lines_i_coord (d n i : ℕ) : List Line :=
  let diagonals := get_diagonals_coord (i + 1) n
  (combinations (List.range d) (i + 1)).flatMap (fun i_comb =>
    let other_d := other_dims d i_comb
    (listProd (List.replicate (d - i - 1) ((List.range n).map (fun (k : ℕ) => (k : ℤ))))).flatMap
      (fun cell =>
        diagonals.map (fun diagonal =>
          diagonal.map (fun c => insert_into_tuple c other_d cell))))

/-- `hypercube.get_lines_coord(d, n)`: all lines of `h(d, n)`, flattened,
grouped by span. -/
def get_lines_coord (d n : ℕ) : List Line :=
  (List.range d).flatMap (fun i => get_lines_i_coord d n i)

/-- `hypercube.get_scopes_coord(lines, d)` viewed as a function: the scope of
`cell` is the sublist of `lines` containing `cell` (the source iterates the
cells of the hypercube and appends each line containing the cell, which
yields exactly this filter for every cell key). -/
def get_scopes_coord (lines : List Line) (cell : Cell) : List Line :=
  lines.filter (fun l => decide (cell ∈ l))

/-- The cells of `h(d, n)` in `itertools.product(range(n), repeat=d)` order
(the key set of the scope dictionary). -/
def cells_coord (d n : ℕ) : List Cell :=
  listProd (List.replicate d ((List.range n).map (fun (k : ℕ) => (k : ℤ))))


/-- The fold of `list.insert` calls performed by `insert_into_tuple` once the
position/value pairs are sorted. -/
def insertChain (t : List ℤ) (pvs : List (ℕ × ℤ)) : List ℤ :=
  pvs.foldl (fun tl pv => tl.insertIdx pv.1 pv.2) t

/-! ### The numpy pipeline (`_np` functions)

A numpy array view is modelled by its shape and a function from coordinates
to the stored value; the base array is `np.arange(n ** d).reshape([n] * d)`,
so values are flat row-major indices. -/

structure NpView where
  shape : List ℕ
  val : List ℕ → ℕ

/-- `np.arange(n ** d).reshape([n] * d)`: row-major, value at `c` is
`sum c_j * n^(d-1-j)`. -/
def npBase (d n : ℕ) : NpView :=
  { shape := List.replicate d n
  , val := fun coords => coords.foldl (fun a c => a * n + c) 0 }

/-- `arr.diagonal()` (numpy default `axis1=0, axis2=1`): shape becomes
`shape[2:] + [min(s0, s1)]` and `result[..., k] = arr[k, k, ...]`. -/
def npDiagonal (v : NpView) : NpView :=
  { shape := v.shape.drop 2 ++ [min (v.shape.getD 0 0) (v.shape.getD 1 0)]
  , val := fun coords => v.val (coords.getLastD 0 :: coords.getLastD 0 :: coords.dropLast) }

/-- `np.flip(arr, 0)`: reverse the first axis. -/
def npFlip0 (v : NpView) : NpView :=
  { shape := v.shape
  , val := fun coords => v.val ((v.shape.headD 0 - 1 - coords.headD 0) :: coords.tail) }

/-- Rebuild a full coordinate tuple from sliced coordinates `cs` and the
fixed `(axis, value)` pairs `af` (axes ascending), walking output axes from
`j`; `fuel` bounds the number of axes produced. -/
def buildFull : ℕ → ℕ → List (ℕ × ℕ) → List ℕ → List ℕ
  | 0, _, _, _ => []
  | fuel + 1, j, af, cs =>
    match af with
    | (a, x) :: af2 =>
      if a = j then x :: buildFull fuel (j + 1) af2 cs
      else
        match cs with
        | c :: cs2 => c :: buildFull fuel (j + 1) af cs2
        | [] => []
    | [] =>
      match cs with
      | c :: cs2 => c :: buildFull fuel (j + 1) [] cs2
      | [] => []

/-- `hypercube.slice_ndarray(arr, axes, coords)`: fix the given axes at the
given coordinates (integer indexing removes those axes). -/
def slice_ndarray (v : NpView) (axes : List ℕ) (fixed : List ℕ) : NpView :=
  { shape := ((List.range v.shape.length).filter (fun j => !(axes.contains j))).map
      (fun j => v.shape.getD j 0)
  , val := fun coords => v.val (buildFull v.shape.length 0 (axes.zip fixed) coords) }

/-- `hypercube.get_diagonals_np(arr)`: recursively take the main diagonal and
the diagonal of the axis-0 flip; `fuel` is the number of dimensions (the
exact recursion depth of the source). A 1-d view yields its list of values. -/
def get_diagonals_np : ℕ → NpView → List (List ℕ)
  | 0, _ => []
  | fuel + 1, v =>
    if v.shape.length == 1 then
      [(List.range (v.shape.headD 0)).map (fun k => v.val [k])]
    else
      get_diagonals_np fuel (npDiagonal v) ++ get_diagonals_np fuel (npDiagonal (npFlip0 v))

/-- `hypercube.get_lines_i_np(arr, i)` on the base `arange` array, flattened:
for each `(i+1)`-combination of dimensions and each fixed assignment of the
remaining dimensions, the diagonals of the resulting slice. -/
def get_lines_i_np (d n i : ℕ) : List (List ℕ) :=
  (combinations (List.range d) (i + 1)).flatMap (fun i_comb =>
    let other_d := other_dims d i_comb
    (listProd (List.replicate (d - i - 1) (List.range n))).flatMap (fun cell =>
      get_diagonals_np (i + 1) (slice_ndarray (npBase d n) other_d cell)))

/-- `hypercube.get_lines_np(arr)` on the base `arange` array, flattened. -/
def get_lines_np (d n : ℕ) : List (List ℕ) :=
  (List.range d).flatMap (fun i => get_lines_i_np d n i)

/-- `np.unravel_index(v, [n] * d)`: row-major coordinates of flat index `v`. -/
def unravel_index (d n v : ℕ) : Cell :=
  (List.range d).map (fun (j : ℕ) => (((v / n ^ (d - 1 - j)) % n : ℕ) : ℤ))

/-- The cells of a numpy line (`get_scopes_np` unravels each stored value). -/
def np_line_cells (d n : ℕ) (line : List ℕ) : Line :=
  line.map (unravel_index d n)

/-- `hypercube.get_scopes_np(lines, d)` viewed as a function: the scope of a
cell is the list of lines (as coordinate lists) containing it. The source
appends each line once per value unravelling to the cell, which is the same
list because the cells of one line are distinct. -/
def get_scopes_np (d n : ℕ) (cell : Cell) : List Line :=
  ((get_lines_np d n).map (np_line_cells d n)).filter (fun lc => decide (cell ∈ lc))

/-- Python `sorted` on a list of naturals (insertion sort, ascending). -/
def pyInsert (x : ℕ) : List ℕ → List ℕ
  | [] => [x]
  | y :: ys => if x ≤ y then x :: y :: ys else y :: pyInsert x ys

/-- Python `sorted` on a list of naturals. -/
def pySorted : List ℕ → List ℕ
  | [] => []
  | x :: xs => pyInsert x (pySorted xs)

/-- `arr[c]` for the base `arange` array at a valid coordinate `c`. -/
def arr_val (n : ℕ) (c : Cell) : ℕ :=
  c.foldl (fun a x => a * n + x.toNat) 0

/-- `hypercube._lines_np_coord_check(d, n)`: sort each numpy line's values
and each coordinate line's values (after reading them off the `arange`
array), and compare the two collections as Python sets (mutual membership). -/
def lines_np_coord_check (d n : ℕ) : Bool :=
  let t_np := (get_lines_np d n).map (fun l => pySorted l)
  let t_coord := (get_lines_coord d n).map (fun l => pySorted (l.map (arr_val n)))
  t_np.all (fun t => t_coord.contains t) && t_coord.all (fun t => t_np.contains t)

/-- `hypercube.structure_coord(d, n)`: the line list and the scope map. -/
def structure_coord (d n : ℕ) : List Line × (Cell → List Line) :=
  (get_lines_coord d n, get_scopes_coord (get_lines_coord d n))

/-! ### The game state machine (`tictactoe.py`) -/

inductive GameState where
  | WIN_P1 : GameState
  | WIN_P2 : GameState
  | TIE : GameState
  | IN_PROGRESS : GameState
deriving DecidableEq, Repr

inductive MoveErr where
  | gameOver : MoveErr
  | invalidCell : MoveErr
  | alreadyPlayed : MoveErr
deriving DecidableEq, Repr

/-- A move argument: a string (list of characters) or a tuple of ints. -/
inductive MoveInput where
  | str : List Char → MoveInput
  | tup : Cell → MoveInput

/-- `TicTacToe._MOVE_BASE`. -/
def MOVE_BASE : ℤ := 99

/-- The digit value of a character (`int(ch)` for a digit). -/
def digitVal (ch : Char) : ℤ := ((ch.toNat - 48 : ℕ) : ℤ)

/-- `re.findall(r'\d+', s)`: the maximal runs of digit characters. -/
def digitRuns (s : List Char) : List (List Char) :=
  (s.foldr (fun c acc =>
    if c.isDigit then
      if acc.2 then
        match acc.1 with
        | r :: rs => ((c :: r) :: rs, true)
        | [] => ([[c]], true)
      else ([c] :: acc.1, true)
    else (acc.1, false)) (([], false) : List (List Char) × Bool)).1

/-- `int(run)` for a run of digit characters. -/
def natOfDigits (run : List Char) : ℤ :=
  run.foldl (fun a c => a * 10 + digitVal c) 0

/-- `hypercube.str_to_tuple(d, n, cell, offset)`: `none` models the raised
`ValueError`s. If there is no non-digit character each digit is one
coordinate (rejected when `n > 9`); otherwise the maximal digit runs are the
coordinates. The offset is subtracted, the count must be `d`, and every
coordinate must lie in `range(n)`. -/
def str_to_tuple (d n : ℕ) (cell : List Char) (offset : ℤ) : Option Cell :=
  let tupOpt : Option Cell :=
    if cell.all Char.isDigit then
      if 9 < n then none
      else some (cell.map (fun ch => digitVal ch - offset))
    else some ((digitRuns cell).map (fun run => natOfDigits run - offset))
  match tupOpt with
  | none => none
  | some tup =>
    if tup.length = d then
      if tup.all (fun t => decide (0 ≤ t ∧ t < (n : ℤ))) then some tup else none
    else none

/-- numpy integer index resolution on one axis of length `n`: indices in
`[0, n)` are kept, indices in `[-n, 0)` wrap around, anything else raises
`IndexError`. -/
def np_index (n : ℕ) (x : ℤ) : Option ℤ :=
  if 0 ≤ x ∧ x < (n : ℤ) then some x
  else if -(n : ℤ) ≤ x ∧ x < 0 then some (x + n) else none

/-- `self.board[t_cell]` index resolution: numpy indexing of a `d`-dimensional
array by a tuple of `d` ints (tuples of other lengths produce sub-array
views in numpy and are outside this model; every claim uses full tuples). -/
def np_resolve (d n : ℕ) (c : Cell) : Option Cell :=
  if c.length = d then c.mapM (np_index n) else none

/-- The mutable state of a `TicTacToe` instance (the scope structure is a
function of `d` and `n` and is recomputed where needed). -/
structure TTT where
  d : ℕ
  n : ℕ
  moves_per_turn : ℕ
  board : Cell → ℤ
  state : GameState
  win_line : Line
  active_player : ℕ
  active_moves : ℕ
  moves : List (ℕ × Cell)
  moves_played : ℤ × ℤ

/-- `self.moves_played[p]`. -/
def mpGet (mp : ℤ × ℤ) (p : ℕ) : ℤ := if p = 0 then mp.1 else mp.2

/-- `self.moves_played[p] += delta`. -/
def mpAdd (mp : ℤ × ℤ) (p : ℕ) (delta : ℤ) : ℤ × ℤ :=
  if p = 0 then (mp.1 + delta, mp.2) else (mp.1, mp.2 + delta)

/-- `int(not p)` for the stored active-player int. -/
def pyNotInt (p : ℕ) : ℕ := if p = 0 then 1 else 0

/-- `TicTacToe.reset()`. -/
def TTT.reset (g : TTT) : TTT :=
  { g with state := GameState.IN_PROGRESS
         , board := fun _ => 0
         , win_line := []
         , active_player := 0
         , active_moves := 0
         , moves := []
         , moves_played := (0, 0) }

/-- `TicTacToe.__init__(d, n, moves_per_turn)` (the structure is rebuilt from
`d` and `n` on demand; `reset` initialises the mutable fields). -/
def TTT.init (d n moves_per_turn : ℕ) : TTT :=
  TTT.reset
    { d := d, n := n, moves_per_turn := moves_per_turn, board := fun _ => 0
    , state := GameState.IN_PROGRESS, win_line := [], active_player := 0
    , active_moves := 0, moves := [], moves_played := (0, 0) }

/-- The scan inside `TicTacToe.is_win` when the game is in progress: below
the `2n - 1` move threshold no win is reported; otherwise the scope of the
last move's cell is searched for a line whose `n` values all exceed
`MOVE_BASE` or are all below `-MOVE_BASE` (the scope lines are numpy views
of the live board, modelled by reading the board at the line's cells). -/
def TTT.win_line_check (g : TTT) : Option Line :=
  if g.moves.length < 2 * g.n - 1 then none
  else
    match g.moves.getLast? with
    | none => none
    | some m =>
      (get_scopes_np g.d g.n m.2).find? (fun line =>
        line.countP (fun p => decide (MOVE_BASE < g.board p)) == g.n ||
        line.countP (fun p => decide (g.board p < -MOVE_BASE)) == g.n)

/-- `TicTacToe.is_win()`. -/
def TTT.is_win (g : TTT) : Bool :=
  match g.state with
  | GameState.WIN_P1 => true
  | GameState.WIN_P2 => true
  | GameState.TIE => false
  | GameState.IN_PROGRESS => (TTT.win_line_check g).isSome

/-- `TicTacToe.is_tie()`. -/
def TTT.is_tie (g : TTT) : Bool :=
  g.state == GameState.TIE || g.moves.length == g.n ^ g.d

/-- `TicTacToe.move(cell, offset)`, statement for statement. The returned
pair is the object state after the call together with the raised error, if
any (each `raise` happens before any mutation, so the state is returned
unchanged there). -/
def TTT.move (g : TTT) (cell : MoveInput) (offset : ℤ) : TTT × Option MoveErr :=
  if g.state ≠ GameState.IN_PROGRESS then (g, some MoveErr.gameOver)
  else
    let t_cell? : Option Cell :=
      match cell with
      | MoveInput.str s => str_to_tuple g.d g.n s offset
      | MoveInput.tup c => some c
    match t_cell? with
    | none => (g, some MoveErr.invalidCell)
    | some t_cell =>
      match np_resolve g.d g.n t_cell with
      | none => (g, some MoveErr.invalidCell)
      | some cc =>
        let v := g.board cc
        if MOVE_BASE < |v| then (g, some MoveErr.alreadyPlayed)
        else
          let mp := mpAdd g.moves_played g.active_player 1
          let sgn : ℤ := if g.active_player = 1 then -1 else 1
          let g1 := { g with moves_played := mp
                           , board := Function.update g.board cc
                               (sgn * (mpGet mp g.active_player + MOVE_BASE))
                           , moves := g.moves ++ [(g.active_player, t_cell)] }
          let g2 := if g1.active_moves + 1 = g1.moves_per_turn
                    then { g1 with active_moves := 0
                                 , active_player := pyNotInt g1.active_player }
                    else { g1 with active_moves := g1.active_moves + 1 }
          match TTT.win_line_check g2 with
          | some line =>
            ({ g2 with state := if g2.active_player ≠ 0 then GameState.WIN_P2
                                else GameState.WIN_P1
                     , win_line := line }, none)
          | none =>
            if g2.moves.length = g2.n ^ g2.d then ({ g2 with state := GameState.TIE }, none)
            else ({ g2 with state := GameState.IN_PROGRESS }, none)

/-- `TicTacToe.undo(replace)`. -/
def TTT.undo (g : TTT) (replace : ℤ) : TTT :=
  if g.moves.length = 0 then g
  else
    let g1 := { g with state := GameState.IN_PROGRESS }
    let g2 := if g1.active_moves = 0
              then { g1 with active_moves := g1.moves_per_turn - 1
                           , active_player := pyNotInt g1.active_player }
              else { g1 with active_moves := g1.active_moves - 1 }
    let g3 := { g2 with moves_played := mpAdd g2.moves_played g2.active_player (-1) }
    let lastCell := ((g3.moves.getLast?).map (fun m => m.2)).getD []
    let board1 := match np_resolve g3.d g3.n lastCell with
                  | some cc => Function.update g3.board cc replace
                  | none => g3.board
    { g3 with board := board1, moves := g3.moves.dropLast }

/-- A sequence of calls to `move`, failing if any raises. -/
def TTT.playMoves (g : TTT) : List MoveInput → Option TTT
  | [] => some g
  | i :: rest =>
    match TTT.move g i 1 with
    | (g1, none) => TTT.playMoves g1 rest
    | (_, some _) => none

/-- `k` calls to `undo()` with the default replace value. -/
def TTT.undoN (g : TTT) : ℕ → TTT
  | 0 => g
  | k + 1 => TTT.undoN (TTT.undo g 0) k

/-! ### Misère variant, modelled from the spec -/

/-- Modelled from the spec: the misère-capable `TicTacToe` (constructor
parameter `misere: bool`, default false) is not under `src/` — only callers
reference it (`strategies/interactive.py` imports `UnknownMoveError`,
`DuplicateMoveError` and calls `forfeit()`; `HyperOXO/strategy.py` takes a
`misere` game parameter). Per spec §4.4 the win check is scoped to the cell
just played and the completed line assigns the win to the mover, inverted to
the opponent under misère; turn bookkeeping advances after termination is
evaluated. -/
structure SpecGame where
  base : TTT
  misere : Bool

/-- Modelled from the spec: construction with the `misere` flag. -/
def SpecGame.init (d n moves_per_turn : ℕ) (misere : Bool) : SpecGame :=
  { base := TTT.init d n moves_per_turn, misere := misere }

/-- Modelled from the spec: `move` with win detection identical to the
engine's scoped scan, the outcome credited to the mover, and inverted when
`misere` is set. -/
def SpecGame.move (G : SpecGame) (cell : MoveInput) (offset : ℤ) :
    SpecGame × Option MoveErr :=
  let g := G.base
  if g.state ≠ GameState.IN_PROGRESS then (G, some MoveErr.gameOver)
  else
    let t_cell? : Option Cell :=
      match cell with
      | MoveInput.str s => str_to_tuple g.d g.n s offset
      | MoveInput.tup c =>
        if c.length = g.d ∧ c.all (fun x => decide (0 ≤ x ∧ x < (g.n : ℤ)))
        then some c else none
    match t_cell? with
    | none => (G, some MoveErr.invalidCell)
    | some cc =>
      let v := g.board cc
      if MOVE_BASE < |v| then (G, some MoveErr.alreadyPlayed)
      else
        let mp := mpAdd g.moves_played g.active_player 1
        let sgn : ℤ := if g.active_player = 1 then -1 else 1
        let g1 := { g with moves_played := mp
                         , board := Function.update g.board cc
                             (sgn * (mpGet mp g.active_player + MOVE_BASE))
                         , moves := g.moves ++ [(g.active_player, cc)] }
        let winHit := (get_scopes_np g1.d g1.n cc).find? (fun line =>
          line.countP (fun p => decide (MOVE_BASE < g1.board p)) == g1.n ||
          line.countP (fun p => decide (g1.board p < -MOVE_BASE)) == g1.n)
        let g2 : TTT :=
          match winHit with
          | some line =>
            let moverWins : Bool := (g1.active_player == 0) != G.misere
            { g1 with state := if moverWins then GameState.WIN_P1 else GameState.WIN_P2
                    , win_line := line }
          | none =>
            if g1.moves.length = g1.n ^ g1.d then { g1 with state := GameState.TIE }
            else g1
        let g3 := if g2.active_moves + 1 = g2.moves_per_turn
                  then { g2 with active_moves := 0
                               , active_player := pyNotInt g2.active_player }
                  else { g2 with active_moves := g2.active_moves + 1 }
        ({ G with base := g3 }, none)

/-- A sequence of modelled misère moves. -/
def SpecGame.playMoves (G : SpecGame) : List MoveInput → Option SpecGame
  | [] => some G
  | i :: rest =>
    match SpecGame.move G i 1 with
    | (G1, none) => SpecGame.playMoves G1 rest
    | (_, some _) => none

/-- The span dimensions of a line, read off its first two cells: exactly the
positions where they differ (used to show the enumeration never repeats a
line). -/
def recovered_comb (d : ℕ) (l : Line) : List ℕ :=
  (List.range d).filter (fun j => decide ((l.getD 0 []).getD j 0 ≠ (l.getD 1 []).getD j 0))

/-- The five-move 2D scenario (1-based strings): `(1,1)` P0, `(1,2)` P1,
`(2,2)` P0, `(2,1)` P1, `(3,3)` P0. -/
def movesC1 : List MoveInput :=
  [MoveInput.str ['1', '1'], MoveInput.str ['1', '2'], MoveInput.str ['2', '2'],
   MoveInput.str ['2', '1'], MoveInput.str ['3', '3']]

/-- The `d = 2, n = 3` game after the five-move scenario (a terminal state). -/
def gDemoWon : TTT :=
  match TTT.playMoves (TTT.init 2 3 1) movesC1 with
  | some g => g
  | none => TTT.init 2 3 1

/-- The `d = 2, n = 3` game after the single move `'11'`. -/
def gDemoDup : TTT :=
  match TTT.playMoves (TTT.init 2 3 1) [MoveInput.str ['1', '1']] with
  | some g => g
  | none => TTT.init 2 3 1

/-- The `d = 2, n = 3` game after the first four moves of the scenario. -/
def gC5pre : TTT :=
  match TTT.playMoves (TTT.init 2 3 1) (movesC1.take 4) with
  | some g => g
  | none => TTT.init 2 3 1

/-- The `d = 2, n = 3` game after the first three moves of the scenario. -/
def gC4post : TTT :=
  match TTT.playMoves (TTT.init 2 3 1) (movesC1.take 3) with
  | some g => g
  | none => TTT.init 2 3 1

/-- In-range coordinates for a numpy view shape. -/
def inRangeC (shape coords : List ℕ) : Prop :=
  coords.length = shape.length ∧ ∀ j < coords.length, coords.getD j 0 < shape.getD j 0

/-- The value map that embeds a flat value of the `m`-subcube spanned by
`comb` (with the other dimensions fixed at `cell`) into the flat values of
the full `d`-cube: unravel, insert the fixed coordinates, read the full
`arange` array. -/
def gmerge (d n m : ℕ) (comb cell : List ℕ) : ℕ → ℕ := fun v =>
  arr_val n (insert_into_tuple (unravel_index m n v) (other_dims d comb)
    (cell.map (fun (k : ℕ) => (k : ℤ))))

/-- The numpy diagonals of the bare `m`-cube, sorted per line. -/
def sub_np (m n : ℕ) : List (List ℕ) :=
  (get_diagonals_np m (npBase m n)).map (fun l => pySorted l)

/-- The coordinate diagonals of the bare `m`-cube as `arange` values,
sorted per line. -/
def sub_coord (m n : ℕ) : List (List ℕ) :=
  (get_diagonals_coord m n).map (fun diag => pySorted (diag.map (arr_val n)))

/-- Set equality of the two `m`-cube diagonal enumerations (up to cell
order inside a line). -/
def sub_check (m n : ℕ) : Bool :=
  (sub_np m n).all (fun t => (sub_coord m n).contains t) &&
    (sub_coord m n).all (fun t => (sub_np m n).contains t)

/-- Modelled from the spec: the coordinates parsed from a string move
(each digit is a coordinate on the digit-only path, otherwise the maximal
digit runs are the coordinates), before validation. -/
def parsed_coords (n : ℕ) (s : List Char) (offset : ℤ) : Cell :=
  if s.all Char.isDigit then s.map (fun ch => digitVal ch - offset)
  else (digitRuns s).map (fun run => natOfDigits run - offset)

/-- Modelled from the spec: the conditions under which a string move is an
unknown move: all-digits input with `n > 9`, wrong coordinate count, or a
resolved coordinate outside `[0, n)`. -/
def unknown_move_spec (d n : ℕ) (s : List Char) (offset : ℤ) : Prop :=
  (s.all Char.isDigit = true ∧ 9 < n) ∨
    (parsed_coords n s offset).length ≠ d ∨
    ∃ t ∈ parsed_coords n s offset, ¬(0 ≤ t ∧ t < (n : ℤ))

/-- A game with the `win_line` field cleared (`undo` does not restore
`win_line`, and claim C4 does not mention it). -/
def TTT.eraseWin (g : TTT) : TTT := { g with win_line := [] }

/-- The invariant maintained by `move`: board values are `0` or exceed
`MOVE_BASE` in magnitude, the stored player index is `0` or `1`, and the
per-player move counts are non-negative. -/
def TTT.wf (g : TTT) : Prop :=
  (∀ c, g.board c = 0 ∨ MOVE_BASE < |g.board c|) ∧
    g.active_player ≤ 1 ∧ 0 ≤ g.moves_played.1 ∧ 0 ≤ g.moves_played.2

-- END-OF-DEFINITIONS marker: all remaining declarations are theorems.

/-! ### Basic facts about the combinatorial enumerators -/

theorem mem_listProd {α : Type} {ls : List (List α)} {x : List α} :
    x ∈ listProd ls ↔ List.Forall₂ (fun a l => a ∈ l) x ls := by
  induction ls generalizing x with
  | nil => simp [listProd, List.forall₂_nil_right_iff]
  | cons l ls ih =>
    simp only [listProd, List.mem_flatMap, List.mem_map]
    constructor
    · rintro ⟨a, ha, y, hy, rfl⟩
      exact List.Forall₂.cons ha (ih.mp hy)
    · intro h
      cases h with
      | cons ha hy => exact ⟨_, ha, _, ih.mpr hy, rfl⟩

theorem length_of_mem_listProd {α : Type} {ls : List (List α)} {x : List α}
    (h : x ∈ listProd ls) : x.length = ls.length :=
  (mem_listProd.mp h).length_eq

theorem length_listProd {α : Type} (ls : List (List α)) :
    (listProd ls).length = (ls.map List.length).prod := by
  induction ls with
  | nil => simp [listProd]
  | cons l ls ih =>
    simp only [listProd, List.map_cons, List.prod_cons, ← ih]
    induction l with
    | nil => simp
    | cons a l ihl =>
      simp only [List.flatMap_cons, List.length_append, List.length_map, ihl,
        List.length_cons, Nat.succ_mul]
      omega

theorem nodup_listProd {α : Type} {ls : List (List α)} (h : ∀ l ∈ ls, l.Nodup) :
    (listProd ls).Nodup := by
  induction ls with
  | nil => simp [listProd]
  | cons l ls ih =>
    simp only [listProd]
    have hl : l.Nodup := h l (by simp)
    have hrec : (listProd ls).Nodup := ih (fun l' hl' => h l' (by simp [hl']))
    refine List.nodup_flatMap.mpr ⟨fun a _ => hrec.map (fun x y hxy => by injection hxy), ?_⟩
    refine hl.imp (fun {a b} hab => ?_)
    simp only [Function.onFun, List.disjoint_left, List.mem_map]
    rintro x ⟨y, _, rfl⟩ ⟨z, _, hz⟩
    exact hab (by injection hz with h1 _; exact h1 ▸ rfl)

theorem mem_combinations {α : Type} {l : List α} {r : ℕ} {c : List α} :
    c ∈ combinations l r ↔ c.Sublist l ∧ c.length = r := by
  induction l generalizing c r with
  | nil =>
    cases r with
    | zero =>
      constructor
      · intro h
        simp only [combinations, List.mem_singleton] at h
        subst h
        exact ⟨List.Sublist.refl _, rfl⟩
      · rintro ⟨hsub, hlen⟩
        simp only [combinations, List.mem_singleton]
        exact List.length_eq_zero.mp hlen
    | succ r =>
      constructor
      · intro h; simp [combinations] at h
      · rintro ⟨hsub, hlen⟩
        rcases List.sublist_nil.mp hsub with rfl
        simp at hlen
  | cons x xs ih =>
    cases r with
    | zero =>
      simp only [combinations, List.mem_singleton]
      constructor
      · rintro rfl; exact ⟨List.nil_sublist _, rfl⟩
      · rintro ⟨_, hlen⟩; exact List.length_eq_zero.mp hlen
    | succ r =>
      simp only [combinations, List.mem_append, List.mem_map, ih]
      constructor
      · rintro (⟨c', ⟨hsub, hlen⟩, rfl⟩ | ⟨hsub, hlen⟩)
        · exact ⟨hsub.cons_cons x, by simp [hlen]⟩
        · exact ⟨hsub.cons x, hlen⟩
      · rintro ⟨hsub, hlen⟩
        cases c with
        | nil => simp at hlen
        | cons y c' =>
          cases hsub with
          | cons _ h => exact Or.inr ⟨h, hlen⟩
          | cons₂ _ h =>
            exact Or.inl ⟨c', ⟨h, by simpa using hlen⟩, rfl⟩

theorem length_combinations {α : Type} (l : List α) (r : ℕ) :
    (combinations l r).length = Nat.choose l.length r := by
  induction l generalizing r with
  | nil => cases r <;> simp [combinations]
  | cons x xs ih =>
    cases r with
    | zero => simp [combinations]
    | succ r => simp [combinations, ih, Nat.choose_succ_succ, Nat.add_comm]

theorem nodup_combinations {α : Type} {l : List α} (hl : l.Nodup) (r : ℕ) :
    (combinations l r).Nodup := by
  induction l generalizing r with
  | nil => cases r <;> simp [combinations]
  | cons x xs ih =>
    have hx : x ∉ xs := by simp [List.nodup_cons] at hl; exact hl.1
    have hxs : xs.Nodup := by simp [List.nodup_cons] at hl; exact hl.2
    cases r with
    | zero => simp [combinations]
    | succ r =>
      simp only [combinations]
      refine List.Nodup.append ((ih hxs r).map fun a b hab => by injection hab) (ih hxs (r + 1)) ?_
      simp only [List.disjoint_left, List.mem_map]
      rintro c ⟨c', hc', rfl⟩ hc
      exact hx ((mem_combinations.mp hc).1.subset (by simp))

/-- Two strictly sorted lists with the same members are equal. -/
theorem sorted_lt_ext {l₁ l₂ : List ℕ} (h₁ : l₁.Pairwise (· < ·)) (h₂ : l₂.Pairwise (· < ·))
    (h : ∀ x, x ∈ l₁ ↔ x ∈ l₂) : l₁ = l₂ := by
  induction l₁ generalizing l₂ with
  | nil =>
    cases l₂ with
    | nil => rfl
    | cons y l₂ => exact absurd ((h y).mpr (by simp)) (by simp)
  | cons x l₁ ih =>
    cases l₂ with
    | nil => exact absurd ((h x).mp (by simp)) (by simp)
    | cons y l₂ =>
      have hxy : x = y := by
        rcases List.mem_cons.mp ((h x).mp (by simp)) with hx | hx
        · exact hx
        · rcases List.mem_cons.mp ((h y).mpr (by simp)) with hy | hy
          · exact hy.symm
          · have hyx := List.rel_of_pairwise_cons h₂ hx
            have hxy := List.rel_of_pairwise_cons h₁ hy
            omega
      subst hxy
      have htail : l₁ = l₂ := by
        refine ih h₁.of_cons h₂.of_cons (fun z => ⟨fun hz => ?_, fun hz => ?_⟩)
        · rcases List.mem_cons.mp ((h z).mp (List.mem_cons_of_mem _ hz)) with hz2 | hz2
          · have := List.rel_of_pairwise_cons h₁ hz
            omega
          · exact hz2
        · rcases List.mem_cons.mp ((h z).mpr (List.mem_cons_of_mem _ hz)) with hz2 | hz2
          · have := List.rel_of_pairwise_cons h₂ hz
            omega
          · exact hz2
      rw [htail]

/-- In a strictly sorted list, the number of members below the `r`-th entry is `r`. -/
theorem sorted_countP_lt {l : List ℕ} (hl : l.Pairwise (· < ·)) :
    ∀ {r : ℕ}, r < l.length → l.countP (fun x => decide (x < l.getD r 0)) = r := by
  induction l with
  | nil => intro r hr; simp at hr
  | cons a t ih =>
    intro r hr
    cases r with
    | zero =>
      simp only [List.getD_cons_zero, List.countP_cons]
      have h1 : t.countP (fun x => decide (x < a)) = 0 := by
        refine List.countP_eq_zero.mpr (fun x hx => ?_)
        have := List.rel_of_pairwise_cons hl hx
        simp only [decide_eq_true_eq]
        omega
      simp [h1]
    | succ r =>
      have hr' : r < t.length := by simpa using hr
      have hj : t.getD r 0 ∈ t := by
        rw [List.getD_eq_getElem _ _ hr']
        exact List.getElem_mem hr'
      simp only [List.getD_cons_succ, List.countP_cons, ih hl.of_cons hr']
      have ha : a < t.getD r 0 := List.rel_of_pairwise_cons hl hj
      simp only [List.getD, List.get?_eq_getElem?] at ha
      simp [ha]

/-! ### The insertion chain underlying `insert_into_tuple` -/

theorem insert_into_tuple_eq_insertChain (tup : Cell) (pos : List ℕ) (val : List ℤ) :
    insert_into_tuple tup pos val = insertChain tup (sortByFst (pos.zip val)) := rfl

theorem insertByFst_sorted_id {p : ℕ × ℤ} {ps : List (ℕ × ℤ)}
    (h : (p :: ps).Pairwise (fun a b => a.1 ≤ b.1)) : insertByFst p ps = p :: ps := by
  cases ps with
  | nil => rfl
  | cons q qs =>
    have hpq : p.1 ≤ q.1 := List.rel_of_pairwise_cons h (by simp)
    simp [insertByFst, hpq]

theorem sortByFst_sorted_id {ps : List (ℕ × ℤ)}
    (h : ps.Pairwise (fun a b => a.1 ≤ b.1)) : sortByFst ps = ps := by
  induction ps with
  | nil => rfl
  | cons p ps ih =>
    simp only [sortByFst, ih h.of_cons]
    exact insertByFst_sorted_id h

theorem fst_head_le {p : ℕ × ℤ} {rest : List (ℕ × ℤ)} {N : ℕ}
    (hp : (p :: rest).Pairwise (fun a b => a.1 < b.1))
    (hb : ∀ pv ∈ p :: rest, pv.1 < N + (p :: rest).length) : p.1 ≤ N := by
  induction rest generalizing p N with
  | nil =>
    have := hb p (by simp)
    simp at this
    omega
  | cons q rest ih =>
    have hq : q.1 ≤ N + 1 := by
      refine ih (p := q) (N := N + 1) hp.of_cons (fun pv hpv => ?_)
      have := hb pv (List.mem_cons_of_mem _ hpv)
      simp only [List.length_cons] at this ⊢
      omega
    have hpq : p.1 < q.1 := List.rel_of_pairwise_cons hp (by simp)
    omega

theorem insertChain_length :
    ∀ (pvs : List (ℕ × ℤ)) (t : List ℤ),
      pvs.Pairwise (fun a b => a.1 < b.1) →
      (∀ pv ∈ pvs, pv.1 < t.length + pvs.length) →
      (insertChain t pvs).length = t.length + pvs.length := by
  intro pvs
  induction pvs with
  | nil => intro t _ _; simp [insertChain]
  | cons p rest ih =>
    intro t hp hb
    have hple : p.1 ≤ t.length := fst_head_le hp hb
    have h1 : (t.insertIdx p.1 p.2).length = t.length + 1 :=
      List.length_insertIdx _ _ hple
    have := ih (t.insertIdx p.1 p.2) hp.of_cons (fun pv hpv => by
      have := hb pv (List.mem_cons_of_mem _ hpv)
      simp only [List.length_cons] at this
      simp only [h1, List.length_cons]
      omega)
    simp only [insertChain, List.foldl_cons] at this ⊢
    simp only [this, h1, List.length_cons]
    omega

theorem countP_lt_of_ascending {j a : ℕ} :
    ∀ (l : List ℕ), l.Pairwise (· < ·) → (∀ x ∈ l, a < x) →
      l.countP (fun x => decide (x < j)) ≤ j - a - 1 := by
  intro l
  induction l generalizing a with
  | nil => intro _ _; simp
  | cons x xs ih =>
    intro hp ha
    by_cases hxj : x < j
    · have h1 : xs.countP (fun x => decide (x < j)) ≤ j - x - 1 :=
        ih hp.of_cons (fun y hy => List.rel_of_pairwise_cons hp hy)
      have hax : a < x := ha x (by simp)
      simp [List.countP_cons, hxj]
      omega
    · have h1 : xs.countP (fun x => decide (x < j)) ≤ j - a - 1 :=
        ih hp.of_cons (fun y hy => ha y (List.mem_cons_of_mem _ hy))
      simp [List.countP_cons, hxj]
      omega

theorem insertChain_getD_not_mem :
    ∀ (pvs : List (ℕ × ℤ)) (t : List ℤ) (j : ℕ),
      pvs.Pairwise (fun a b => a.1 < b.1) →
      (∀ pv ∈ pvs, pv.1 < t.length + pvs.length) →
      (∀ pv ∈ pvs, pv.1 ≠ j) →
      j - pvs.countP (fun pv => decide (pv.1 < j)) < t.length →
      (insertChain t pvs).getD j 0 =
        t.getD (j - pvs.countP (fun pv => decide (pv.1 < j))) 0 := by
  intro pvs
  induction pvs with
  | nil => intro t j _ _ _ _; simp [insertChain]
  | cons p rest ih =>
    intro t j hp hb hne hlt
    have hple : p.1 ≤ t.length := fst_head_le hp hb
    set t1 := t.insertIdx p.1 p.2 with ht1
    have hlen1 : t1.length = t.length + 1 := List.length_insertIdx _ _ hple
    have hrestb : ∀ pv ∈ rest, pv.1 < t1.length + rest.length := by
      intro pv hpv
      have := hb pv (List.mem_cons_of_mem _ hpv)
      simp only [List.length_cons] at this
      omega
    have hcc : (p :: rest).countP (fun pv => decide (pv.1 < j)) =
        rest.countP (fun pv => decide (pv.1 < j)) + (if p.1 < j then 1 else 0) := by
      by_cases h : p.1 < j <;> simp [List.countP_cons, h]
    set crest := rest.countP (fun pv => decide (pv.1 < j)) with hcrest
    have hstep : (insertChain t (p :: rest)).getD j 0 = (insertChain t1 rest).getD j 0 := by
      simp [insertChain, List.foldl_cons]
    rw [hstep]
    have hij : j - crest < t1.length := by
      rw [hlen1]
      by_cases h : p.1 < j <;> rw [hcc] at hlt <;> simp [h] at hlt <;> omega
    rw [ih t1 j hp.of_cons hrestb (fun pv hpv => hne pv (List.mem_cons_of_mem _ hpv)) hij]
    rcases Nat.lt_or_ge j p.1 with hjp | hjp
    · -- `j` lies strictly before the inserted position: nothing below it moved
      have hc0 : crest = 0 := by
        refine List.countP_eq_zero.mpr (fun pv hpv => ?_)
        have := List.rel_of_pairwise_cons hp hpv
        simp only [decide_eq_true_eq]
        omega
      have hcall : (p :: rest).countP (fun pv => decide (pv.1 < j)) = 0 := by
        rw [hcc]
        have : ¬ p.1 < j := by omega
        simp [this]
        omega
      have e1 : j - crest = j := by omega
      have e2 : j - (p :: rest).countP (fun pv => decide (pv.1 < j)) = j := by omega
      rw [e1, e2]
      have hjt : j < t.length := by omega
      rw [List.getD_eq_getElem _ _ (by omega : j < t.length),
        List.getD_eq_getElem _ _ (by omega : j < t1.length)]
      simp only [ht1]
      exact List.getElem_insertIdx_of_lt t p.2 p.1 j hjp hjt
    · -- `j` lies strictly after the inserted position: index shifts by one
      have hpj : p.1 < j := by
        rcases Nat.lt_or_ge p.1 j with h | h
        · exact h
        · exact absurd (Nat.le_antisymm (by omega) (by omega)) (hne p (by simp))
      have hcrb : crest ≤ j - p.1 - 1 := by
        have hmap : crest = (rest.map Prod.fst).countP (fun x => decide (x < j)) := by
          rw [List.countP_map]; rfl
        rw [hmap]
        refine countP_lt_of_ascending (a := p.1) _ ?_ ?_
        · exact (List.pairwise_map.mpr hp.of_cons).imp (fun h => h)
        · intro x hx
          rcases List.mem_map.mp hx with ⟨pv, hpv, rfl⟩
          exact List.rel_of_pairwise_cons hp hpv
      rw [hcc]
      simp only [hpj, if_true]
      have hk : j - crest = p.1 + (j - crest - p.1 - 1) + 1 := by omega
      have hkt : p.1 + (j - crest - p.1 - 1) < t.length := by omega
      rw [List.getD_eq_getElem _ _ (by omega : j - crest < t1.length),
        List.getD_eq_getElem _ _ (by omega : j - (crest + 1) < t.length)]
      have := List.getElem_insertIdx_add_succ t p.2 p.1 (j - crest - p.1 - 1) hkt
      simp only [ht1]
      convert this using 2
      omega

theorem insertChain_getD_fst :
    ∀ (pvs : List (ℕ × ℤ)) (t : List ℤ),
      pvs.Pairwise (fun a b => a.1 < b.1) →
      (∀ pv ∈ pvs, pv.1 < t.length + pvs.length) →
      ∀ pv ∈ pvs, (insertChain t pvs).getD pv.1 0 = pv.2 := by
  intro pvs
  induction pvs with
  | nil => intro t _ _ pv hpv; simp at hpv
  | cons p rest ih =>
    intro t hp hb pv hpv
    have hple : p.1 ≤ t.length := fst_head_le hp hb
    set t1 := t.insertIdx p.1 p.2 with ht1
    have hlen1 : t1.length = t.length + 1 := List.length_insertIdx _ _ hple
    have hrestb : ∀ q ∈ rest, q.1 < t1.length + rest.length := by
      intro q hq
      have := hb q (List.mem_cons_of_mem _ hq)
      simp only [List.length_cons] at this
      omega
    have hstep : (insertChain t (p :: rest)).getD pv.1 0 = (insertChain t1 rest).getD pv.1 0 := by
      simp [insertChain, List.foldl_cons]
    rw [hstep]
    rcases List.mem_cons.mp hpv with rfl | hpv2
    · have hc0 : rest.countP (fun q => decide (q.1 < pv.1)) = 0 := by
        refine List.countP_eq_zero.mpr (fun q hq => ?_)
        have := List.rel_of_pairwise_cons hp hq
        simp only [decide_eq_true_eq]
        omega
      rw [insertChain_getD_not_mem rest t1 pv.1 hp.of_cons hrestb
        (fun q hq => by have := List.rel_of_pairwise_cons hp hq; omega)
        (by rw [hc0]; omega)]
      rw [hc0, Nat.sub_zero,
        List.getD_eq_getElem _ _ (by omega : pv.1 < t1.length)]
      simp only [ht1]
      exact List.getElem_insertIdx_self t pv.2 pv.1 hple
    · exact ih t1 hp.of_cons hrestb pv hpv2

/-! ### Positional description of the line embedding -/

section EmbedFacts

variable {d : ℕ} {comb : List ℕ}

theorem comb_pairwise (hcomb : comb.Sublist (List.range d)) : comb.Pairwise (· < ·) :=
  List.Pairwise.sublist hcomb (List.pairwise_lt_range d)

theorem mem_comb_lt (hcomb : comb.Sublist (List.range d)) {j : ℕ} (hj : j ∈ comb) : j < d :=
  List.mem_range.mp (hcomb.subset hj)

theorem mem_other_dims {j : ℕ} : j ∈ other_dims d comb ↔ j < d ∧ j ∉ comb := by
  simp [other_dims, List.mem_filter]

theorem other_dims_pairwise : (other_dims d comb).Pairwise (· < ·) :=
  (List.Pairwise.sublist (List.filter_sublist _) (List.pairwise_lt_range d))

theorem comb_eq_filter (hcomb : comb.Sublist (List.range d)) :
    (List.range d).filter (fun j => comb.contains j) = comb := by
  refine sorted_lt_ext (List.Pairwise.sublist (List.filter_sublist _) (List.pairwise_lt_range d))
    (comb_pairwise hcomb) (fun x => ?_)
  simp only [List.mem_filter, List.mem_range, List.elem_eq_mem, decide_eq_true_eq]
  exact ⟨fun h => h.2, fun h => ⟨mem_comb_lt hcomb h, h⟩⟩

theorem length_other_dims (hcomb : comb.Sublist (List.range d)) :
    (other_dims d comb).length = d - comb.length := by
  have hsplit : (List.range d).length =
      ((List.range d).filter (fun j => comb.contains j)).length +
        ((List.range d).filter (fun j => !(comb.contains j))).length := by
    have h1 := List.countP_eq_countP_filter_add (List.range d) (fun _ => true)
      (fun j => comb.contains j)
    simpa [List.countP_true] using h1
  rw [comb_eq_filter hcomb, List.length_range] at hsplit
  simp only [other_dims]
  omega

theorem countP_range_lt {j d : ℕ} (hj : j ≤ d) :
    (List.range d).countP (fun x => decide (x < j)) = j := by
  have hfil : (List.range d).filter (fun x => decide (x < j)) = List.range j := by
    refine sorted_lt_ext (List.Pairwise.sublist (List.filter_sublist _) (List.pairwise_lt_range d))
      (List.pairwise_lt_range j) (fun x => ?_)
    simp only [List.mem_filter, List.mem_range, decide_eq_true_eq]
    omega
  rw [List.countP_eq_length_filter, hfil, List.length_range]

theorem countP_partition (hcomb : comb.Sublist (List.range d)) {j : ℕ} (hj : j ≤ d) :
    comb.countP (fun x => decide (x < j)) +
      (other_dims d comb).countP (fun x => decide (x < j)) = j := by
  have h := List.countP_eq_countP_filter_add (List.range d) (fun x => decide (x < j))
    (fun j => comb.contains j)
  rw [comb_eq_filter hcomb] at h
  rw [countP_range_lt hj] at h
  simp only [other_dims]
  omega

end EmbedFacts

section EmbedMain

variable {d : ℕ} {comb : List ℕ} {c vs : List ℤ}

/-- The sorted position/value pairs fed to the insert chain by
`insert_into_tuple c (other_dims d comb) vs`. -/
theorem insert_into_tuple_other_eq (hv : vs.length = (other_dims d comb).length) :
    insert_into_tuple c (other_dims d comb) vs =
      insertChain c ((other_dims d comb).zip vs) := by
  rw [insert_into_tuple_eq_insertChain, sortByFst_sorted_id]
  refine List.pairwise_map.mp ?_
  rw [List.map_fst_zip _ _ (by omega)]
  exact other_dims_pairwise.imp (fun h => Nat.le_of_lt h)

theorem zip_other_pairwise (hv : vs.length = (other_dims d comb).length) :
    ((other_dims d comb).zip vs).Pairwise (fun a b => a.1 < b.1) := by
  refine List.pairwise_map.mp ?_
  rw [List.map_fst_zip _ _ (by omega)]
  exact other_dims_pairwise

theorem zip_other_bounds (hcomb : comb.Sublist (List.range d))
    (hc : c.length = comb.length) (hv : vs.length = (other_dims d comb).length) :
    ∀ pv ∈ (other_dims d comb).zip vs,
      pv.1 < c.length + ((other_dims d comb).zip vs).length := by
  have hlen : ((other_dims d comb).zip vs).length = (other_dims d comb).length := by
    rw [List.length_zip]; omega
  have hcle : comb.length ≤ d := by
    have := hcomb.length_le
    simpa using this
  intro pv hpv
  rcases pv with ⟨j, v⟩
  have hj : j ∈ other_dims d comb := (List.of_mem_zip hpv).1
  have hjd : j < d := (mem_other_dims.mp hj).1
  rw [hlen, hc, length_other_dims hcomb]
  omega

theorem insert_into_tuple_length (hcomb : comb.Sublist (List.range d))
    (hc : c.length = comb.length) (hv : vs.length = (other_dims d comb).length) :
    (insert_into_tuple c (other_dims d comb) vs).length = d := by
  rw [insert_into_tuple_other_eq hv]
  rw [insertChain_length _ _ (zip_other_pairwise hv) (zip_other_bounds hcomb hc hv)]
  have hcle : comb.length ≤ d := by simpa using hcomb.length_le
  have hv2 : vs.length = d - comb.length := by rw [hv, length_other_dims hcomb]
  rw [List.length_zip, hc, length_other_dims hcomb]
  omega

theorem insert_into_tuple_getD_comb (hcomb : comb.Sublist (List.range d))
    (hc : c.length = comb.length) (hv : vs.length = (other_dims d comb).length)
    {r : ℕ} (hr : r < comb.length) :
    (insert_into_tuple c (other_dims d comb) vs).getD (comb.getD r 0) 0 = c.getD r 0 := by
  rw [insert_into_tuple_other_eq hv]
  set j := comb.getD r 0 with hj
  have hjmem : j ∈ comb := by
    rw [hj, List.getD_eq_getElem _ _ hr]
    exact List.getElem_mem hr
  have hjd : j < d := mem_comb_lt hcomb hjmem
  have hcount : ((other_dims d comb).zip vs).countP (fun pv => decide (pv.1 < j)) =
      (other_dims d comb).countP (fun x => decide (x < j)) := by
    have h1 : ((other_dims d comb).zip vs).countP (fun pv => decide (pv.1 < j)) =
        (((other_dims d comb).zip vs).map Prod.fst).countP (fun x => decide (x < j)) := by
      rw [List.countP_map]; rfl
    rw [h1, List.map_fst_zip _ _ (by omega)]
  have hcombcount : comb.countP (fun x => decide (x < j)) = r :=
    sorted_countP_lt (comb_pairwise hcomb) hr
  have hpart := countP_partition hcomb (Nat.le_of_lt hjd)
  rw [insertChain_getD_not_mem _ _ _ (zip_other_pairwise hv) (zip_other_bounds hcomb hc hv)
    (fun pv hpv => by
      have hmem := (List.of_mem_zip hpv).1
      have := (mem_other_dims.mp hmem).2
      intro hcon
      exact this (hcon ▸ hjmem))
    (by rw [hcount]; omega)]
  rw [hcount]
  congr 1
  omega

theorem insert_into_tuple_getD_other (hcomb : comb.Sublist (List.range d))
    (hc : c.length = comb.length) (hv : vs.length = (other_dims d comb).length)
    {s : ℕ} (hs : s < (other_dims d comb).length) :
    (insert_into_tuple c (other_dims d comb) vs).getD ((other_dims d comb).getD s 0) 0 =
      vs.getD s 0 := by
  rw [insert_into_tuple_other_eq hv]
  have hlen : ((other_dims d comb).zip vs).length = (other_dims d comb).length := by
    rw [List.length_zip]; omega
  have hszip : s < ((other_dims d comb).zip vs).length := by omega
  have hsv : s < vs.length := by omega
  have hpv : ((other_dims d comb).zip vs)[s] = ((other_dims d comb)[s], vs[s]) :=
    List.getElem_zip
  have := insertChain_getD_fst _ c (zip_other_pairwise hv) (zip_other_bounds hcomb hc hv)
    (((other_dims d comb).zip vs)[s]) (List.getElem_mem hszip)
  rw [hpv] at this
  rw [List.getD_eq_getElem _ _ hs, List.getD_eq_getElem _ _ hsv]
  exact this

end EmbedMain

/-! ### Corner and diagonal facts -/

theorem mem_corners0 {d n : ℕ} {corner : Cell} :
    corner ∈ corners0 d n ↔
      corner.length = d ∧ (∀ x ∈ corner, x = 0 ∨ x = (n : ℤ) - 1) ∧ corner.headD 1 = 0 := by
  simp only [corners0, List.mem_filter, beq_iff_eq]
  constructor
  · rintro ⟨hmem, hhead⟩
    have hf := mem_listProd.mp hmem
    have hlen : corner.length = d := by simpa using hf.length_eq
    refine ⟨hlen, ?_, hhead⟩
    intro x hx
    rcases List.mem_iff_getElem.mp hx with ⟨k, hk, rfl⟩
    rcases List.forall₂_iff_get.mp hf with ⟨_, hget⟩
    have hkd : k < (List.replicate d [(0 : ℤ), (n : ℤ) - 1]).length := by
      simp only [List.length_replicate]
      omega
    have := hget k hk hkd
    simp only [List.get_eq_getElem, List.getElem_replicate] at this
    simpa using this
  · rintro ⟨hlen, hvals, hhead⟩
    refine ⟨mem_listProd.mpr ?_, hhead⟩
    rw [List.forall₂_iff_get]
    refine ⟨by simpa using hlen, fun k h1 h2 => ?_⟩
    simp only [List.get_eq_getElem, List.getElem_replicate]
    have := hvals (corner[k]) (List.getElem_mem h1)
    simpa using this

theorem corners0_head {d n : ℕ} {corner : Cell} (h : corner ∈ corners0 d n) (hd : 1 ≤ d) :
    ∃ rest, corner = (0 : ℤ) :: rest := by
  rcases mem_corners0.mp h with ⟨hlen, _, hhead⟩
  cases corner with
  | nil =>
    simp only [List.length_nil] at hlen
    omega
  | cons x rest =>
    have hx : x = 0 := by simpa using hhead
    exact ⟨rest, by rw [hx]⟩

theorem corners0_nonneg {d n : ℕ} {corner : Cell} (h : corner ∈ corners0 d n) (hn : 1 ≤ n)
    {x : ℤ} (hx : x ∈ corner) : 0 ≤ x := by
  rcases (mem_corners0.mp h).2.1 x hx with rfl | rfl
  · omega
  · omega

theorem diagOf_eq_map_range {n : ℕ} {corner : Cell} (hn : 1 ≤ n)
    (hnn : ∀ x ∈ corner, 0 ≤ x) :
    diagOf n corner =
      (List.range n).map (fun (i : ℕ) => corner.map (fun c => |c - (i : ℤ)|)) := by
  have hzero : corner.map (fun c => |c - ((0 : ℕ) : ℤ)|) = corner := by
    have h1 : ∀ c ∈ corner, |c - ((0 : ℕ) : ℤ)| = id c := by
      intro c hc
      rw [Nat.cast_zero, sub_zero, abs_of_nonneg (hnn c hc)]
      rfl
    rw [List.map_congr_left h1, List.map_id]
  obtain ⟨m, rfl⟩ : ∃ m, n = m + 1 := ⟨n - 1, by omega⟩
  simp only [diagOf, Nat.add_sub_cancel]
  rw [List.range_eq_range', List.range'_succ, List.map_cons, hzero]

theorem diagOf_length {n : ℕ} (corner : Cell) (hn : 1 ≤ n) :
    (diagOf n corner).length = n := by
  simp only [diagOf, List.length_cons, List.length_map, List.length_range']
  omega

theorem diagOf_getD {n : ℕ} {corner : Cell} (hn : 1 ≤ n) (hnn : ∀ x ∈ corner, 0 ≤ x)
    {i : ℕ} (hi : i < n) :
    (diagOf n corner).getD i [] = corner.map (fun c => |c - (i : ℤ)|) := by
  rw [diagOf_eq_map_range hn hnn]
  rw [List.getD_eq_getElem _ _ (by simpa using hi)]
  simp

theorem corners0_length {d n : ℕ} (hd : 1 ≤ d) (hn : 2 ≤ n) :
    (corners0 d n).length = 2 ^ (d - 1) := by
  obtain ⟨m, rfl⟩ : ∃ m, d = m + 1 := ⟨d - 1, by omega⟩
  have hne : ((n : ℤ) - 1) ≠ 0 := by
    have : (2 : ℤ) ≤ (n : ℤ) := by exact_mod_cast hn
    omega
  simp only [corners0, List.replicate_succ, listProd]
  rw [List.flatMap_cons, List.flatMap_cons, List.flatMap_nil, List.append_nil,
    List.filter_append]
  have h1 : ((listProd (List.replicate m [(0 : ℤ), (n : ℤ) - 1])).map
      (fun x => (0 : ℤ) :: x)).filter (fun corner => corner.headD 1 == 0) =
      (listProd (List.replicate m [(0 : ℤ), (n : ℤ) - 1])).map (fun x => (0 : ℤ) :: x) := by
    rw [List.filter_eq_self]
    rintro c hc
    rcases List.mem_map.mp hc with ⟨y, _, rfl⟩
    simp
  have h2 : ((listProd (List.replicate m [(0 : ℤ), (n : ℤ) - 1])).map
      (fun x => ((n : ℤ) - 1) :: x)).filter (fun corner => corner.headD 1 == 0) = [] := by
    rw [List.filter_eq_nil_iff]
    rintro c hc
    rcases List.mem_map.mp hc with ⟨y, _, rfl⟩
    simpa using hne
  rw [h1, h2, List.append_nil, List.length_map, length_listProd]
  simp [Nat.add_sub_cancel]

/-! ### The closed-form line count (general, for `n ≥ 2`) -/

theorem length_flatMap_const {α β : Type} {l : List α} {f : α → List β} {k : ℕ}
    (h : ∀ x ∈ l, (f x).length = k) : (l.flatMap f).length = l.length * k := by
  induction l with
  | nil => simp
  | cons x xs ih =>
    rw [List.flatMap_cons, List.length_append, h x (by simp),
      ih (fun y hy => h y (by simp [hy]))]
    simp [Nat.succ_mul]
    omega

theorem length_get_diagonals_coord {m n : ℕ} (hm : 1 ≤ m) (hn : 2 ≤ n) :
    (get_diagonals_coord m n).length = 2 ^ (m - 1) := by
  rw [get_diagonals_coord, List.length_map, corners0_length hm hn]

theorem length_get_lines_i_coord {d n i : ℕ} (_hi : i < d) (hn : 2 ≤ n) :
    (get_lines_i_coord d n i).length =
      Nat.choose d (i + 1) * n ^ (d - i - 1) * 2 ^ i := by
  rw [get_lines_i_coord]
  rw [length_flatMap_const (k := n ^ (d - i - 1) * 2 ^ i) ?_]
  · rw [length_combinations, List.length_range]
    ring
  · intro comb hcomb
    rw [length_flatMap_const (k := 2 ^ i) ?_]
    · rw [length_listProd]
      have : (List.replicate (d - i - 1) ((List.range n).map (fun (k : ℕ) => (k : ℤ)))).map
          List.length = List.replicate (d - i - 1) n := by
        rw [List.map_replicate, List.length_map, List.length_range]
      rw [this, List.prod_replicate]
    · intro cell _
      rw [List.length_map, length_get_diagonals_coord (by omega) hn]
      simp

theorem length_get_lines_coord {d n : ℕ} (hn : 2 ≤ n) :
    (get_lines_coord d n).length = num_lines d n := by
  rw [get_lines_coord, num_lines, num_lines_grouped, List.length_flatMap]
  simp only [Function.comp_def]
  have h1 : (List.range d).map (fun i => (get_lines_i_coord d n i).length) =
      (List.range d).map (fun i => Nat.choose d (i + 1) * n ^ (d - i - 1) * 2 ^ i) :=
    List.map_congr_left (fun i hi =>
      length_get_lines_i_coord (List.mem_range.mp hi) hn)
  rw [h1, List.range'_eq_map_range, List.map_map]
  refine congrArg List.sum (List.map_congr_left (fun i _ => ?_))
  simp only [Function.comp_apply]
  rw [show 1 + i = i + 1 from by omega, show d - (i + 1) = d - i - 1 from by omega,
    show i + 1 - 1 = i from by omega]

theorem num_lines_eq_Icc_sum (d n : ℕ) :
    num_lines d n = ∑ m ∈ Finset.Icc 1 d, Nat.choose d m * n ^ (d - m) * 2 ^ (m - 1) := by
  have h1 : Finset.Icc 1 d = Finset.Ico 1 (d + 1) := rfl
  rw [h1, Finset.sum_Ico_eq_sum_range]
  simp only [Nat.add_sub_cancel]
  rw [num_lines, num_lines_grouped, List.range'_eq_map_range, List.map_map]
  rfl

/-! ### Claim C2: the line-count closed form -/

/-- C2 (counterexample): as stated the claim includes `n = 1`, where the
enumerator double-counts every diagonal (the corner list `[0, n-1]`
degenerates to `[0, 0]`): at `d = 1, n = 1` it yields 2 lines while
`num_lines(1, 1) = 1`. -/
theorem claim_C2_counterexample :
    ¬ ((get_lines_coord 1 1).length = num_lines 1 1) := by decide

/-- C2 (amended): for every `d ≥ 1` and `n ≥ 2`, the number of lines produced
by `get_lines_coord(d, n)` equals `num_lines(d, n)`, which is the closed form
`Σ_{m=1}^{d} C(d,m) · n^(d-m) · 2^(m-1)`. -/
theorem claim_C2 (d n : ℕ) (_hd : 1 ≤ d) (hn : 2 ≤ n) :
    (get_lines_coord d n).length = num_lines d n ∧
      num_lines d n = ∑ m ∈ Finset.Icc 1 d, Nat.choose d m * n ^ (d - m) * 2 ^ (m - 1) :=
  ⟨length_get_lines_coord hn, num_lines_eq_Icc_sum d n⟩

/-- C2 (witness): the amended claim applied at `d = 2, n = 3`, where the
count is 8. -/
theorem claim_C2_witness :
    1 ≤ 2 ∧ 2 ≤ 3 ∧
      ((get_lines_coord 2 3).length = num_lines 2 3 ∧
        num_lines 2 3 = ∑ m ∈ Finset.Icc 1 2, Nat.choose 2 m * 3 ^ (2 - m) * 2 ^ (m - 1)) :=
  ⟨by decide, by decide, claim_C2 2 3 (by decide) (by decide)⟩

/-! ### Well-formedness of the enumerated lines -/

theorem mem_get_lines_i_coord {d n i : ℕ} {l : Line} :
    l ∈ get_lines_i_coord d n i ↔
      ∃ comb ∈ combinations (List.range d) (i + 1),
        ∃ vs ∈ listProd (List.replicate (d - i - 1) ((List.range n).map (fun (k : ℕ) => (k : ℤ)))),
          ∃ corner ∈ corners0 (i + 1) n,
            l = (diagOf n corner).map
              (fun c => insert_into_tuple c (other_dims d comb) vs) := by
  simp only [get_lines_i_coord, get_diagonals_coord, List.mem_flatMap, List.mem_map]
  constructor
  · rintro ⟨comb, hcomb, vs, hvs, diag, ⟨corner, hcorner, rfl⟩, rfl⟩
    exact ⟨comb, hcomb, vs, hvs, corner, hcorner, rfl⟩
  · rintro ⟨comb, hcomb, vs, hvs, corner, hcorner, rfl⟩
    exact ⟨comb, hcomb, vs, hvs, diagOf n corner, ⟨corner, hcorner, rfl⟩, rfl⟩

theorem mem_get_lines_coord {d n : ℕ} {l : Line} :
    l ∈ get_lines_coord d n ↔ ∃ i < d, l ∈ get_lines_i_coord d n i := by
  simp [get_lines_coord, List.mem_flatMap, List.mem_range]

theorem vs_facts {n k : ℕ} {vs : List ℤ}
    (hvs : vs ∈ listProd (List.replicate k ((List.range n).map (fun (j : ℕ) => (j : ℤ))))) :
    vs.length = k ∧ ∀ x ∈ vs, 0 ≤ x ∧ x < (n : ℤ) := by
  have hf := mem_listProd.mp hvs
  have hvk : vs.length = k := by simpa using hf.length_eq
  refine ⟨hvk, ?_⟩
  intro x hx
  rcases List.mem_iff_getElem.mp hx with ⟨r, hr, rfl⟩
  rcases List.forall₂_iff_get.mp hf with ⟨hlen, hget⟩
  have hr2 : r < (List.replicate k ((List.range n).map (fun (j : ℕ) => (j : ℤ)))).length := by
    simp only [List.length_replicate]
    omega
  have := hget r hr hr2
  simp only [List.get_eq_getElem, List.getElem_replicate, List.mem_map, List.mem_range] at this
  rcases this with ⟨j, hj, hjx⟩
  constructor
  · omega
  · have : ((j : ℤ)) < (n : ℤ) := by exact_mod_cast hj
    omega

theorem diag_cell_facts {m n : ℕ} {corner cel : Cell} (hn : 1 ≤ n)
    (hcorner : corner ∈ corners0 m n) (hcel : cel ∈ diagOf n corner) :
    cel.length = m ∧ ∀ x ∈ cel, 0 ≤ x ∧ x < (n : ℤ) := by
  rcases mem_corners0.mp hcorner with ⟨hlen, hvals, _⟩
  have hnn : ∀ x ∈ corner, 0 ≤ x := fun x hx => by
    rcases hvals x hx with rfl | rfl
    · omega
    · have : (1 : ℤ) ≤ (n : ℤ) := by exact_mod_cast hn
      omega
  rw [diagOf_eq_map_range hn hnn] at hcel
  rcases List.mem_map.mp hcel with ⟨i, hi, rfl⟩
  have hin : i < n := List.mem_range.mp hi
  constructor
  · simp [hlen]
  · intro x hx
    rcases List.mem_map.mp hx with ⟨c, hc, rfl⟩
    have hcn : (i : ℤ) < (n : ℤ) := by exact_mod_cast hin
    have h1n : (1 : ℤ) ≤ (n : ℤ) := by exact_mod_cast hn
    rcases hvals c hc with rfl | rfl
    · rw [abs_of_nonpos (by omega)]
      omega
    · rw [abs_of_nonneg (by omega)]
      omega

theorem insertIdx_mem_cases {x v : ℤ} {p : ℕ} {t : List ℤ}
    (h : x ∈ t.insertIdx p v) : x = v ∨ x ∈ t := by
  rcases le_or_lt p t.length with hp | hp
  · exact (List.mem_insertIdx hp).mp h
  · rw [List.insertIdx_of_length_lt _ _ _ hp] at h
    exact Or.inr h

theorem insertChain_mem :
    ∀ (pvs : List (ℕ × ℤ)) (t : List ℤ) (x : ℤ),
      x ∈ insertChain t pvs → x ∈ t ∨ ∃ pv ∈ pvs, x = pv.2 := by
  intro pvs
  induction pvs with
  | nil => intro t x h; exact Or.inl h
  | cons p rest ih =>
    intro t x h
    have hstep : insertChain t (p :: rest) = insertChain (t.insertIdx p.1 p.2) rest := by
      simp [insertChain, List.foldl_cons]
    rw [hstep] at h
    rcases ih _ x h with h2 | ⟨pv, hpv, rfl⟩
    · rcases insertIdx_mem_cases h2 with rfl | h3
      · exact Or.inr ⟨p, by simp, rfl⟩
      · exact Or.inl h3
    · exact Or.inr ⟨pv, by simp [hpv], rfl⟩

theorem insertChain_inj :
    ∀ (pvs : List (ℕ × ℤ)) {t1 t2 : List ℤ},
      insertChain t1 pvs = insertChain t2 pvs → t1 = t2 := by
  intro pvs
  induction pvs with
  | nil => intro t1 t2 h; exact h
  | cons p rest ih =>
    intro t1 t2 h
    have hstep : ∀ t, insertChain t (p :: rest) = insertChain (t.insertIdx p.1 p.2) rest := by
      intro t
      simp [insertChain, List.foldl_cons]
    rw [hstep, hstep] at h
    exact List.insertIdx_injective p.1 p.2 (ih h)

theorem insert_into_tuple_inj {pos : List ℕ} {val : List ℤ} {t1 t2 : Cell}
    (h : insert_into_tuple t1 pos val = insert_into_tuple t2 pos val) : t1 = t2 :=
  insertChain_inj _ h

/-- All the facts needed about one enumerated line: it has `n` cells, each a
valid coordinate of the hypercube, and no cell repeats. -/
theorem line_wf {d n : ℕ} (hn : 1 ≤ n) {l : Line} (hl : l ∈ get_lines_coord d n) :
    l.length = n ∧ (∀ c ∈ l, c.length = d ∧ ∀ x ∈ c, 0 ≤ x ∧ x < (n : ℤ)) ∧ l.Nodup := by
  rcases mem_get_lines_coord.mp hl with ⟨i, hi, hl2⟩
  rcases mem_get_lines_i_coord.mp hl2 with ⟨comb, hcomb, vs, hvs, corner, hcorner, rfl⟩
  rcases mem_combinations.mp hcomb with ⟨hsub, hclen⟩
  rcases vs_facts hvs with ⟨hvlen, hvvals⟩
  have hcornerlen : corner.length = i + 1 := (mem_corners0.mp hcorner).1
  have hcornernn : ∀ x ∈ corner, 0 ≤ x := fun x hx => corners0_nonneg hcorner hn hx
  have hvother : vs.length = (other_dims d comb).length := by
    rw [hvlen, length_other_dims hsub, hclen]
    omega
  refine ⟨?_, ?_, ?_⟩
  · rw [List.length_map, diagOf_length _ hn]
  · intro c hc
    rcases List.mem_map.mp hc with ⟨cel, hcel, rfl⟩
    rcases diag_cell_facts hn hcorner hcel with ⟨hcellen, hcelvals⟩
    constructor
    · exact insert_into_tuple_length hsub (by rw [hcellen, hclen]) hvother
    · intro x hx
      rw [insert_into_tuple_other_eq hvother] at hx
      rcases insertChain_mem _ _ _ hx with hx2 | ⟨pv, hpv, rfl⟩
      · exact hcelvals x hx2
      · exact hvvals pv.2 (List.of_mem_zip ((by exact hpv) :
          (pv.1, pv.2) ∈ (other_dims d comb).zip vs)).2
  · rw [diagOf_eq_map_range hn hcornernn, List.map_map]
    rcases corners0_head hcorner (by omega) with ⟨rest, rfl⟩
    refine ((List.nodup_range n).map_on ?_)
    intro a ha b hb hab
    simp only [Function.comp_apply, List.map_cons] at hab
    have h1 := insert_into_tuple_inj hab
    simp at h1
    exact h1.1

theorem ext_getD {l1 l2 : List ℤ} (hlen : l1.length = l2.length)
    (h : ∀ r < l1.length, l1.getD r 0 = l2.getD r 0) : l1 = l2 := by
  refine List.ext_getElem hlen (fun i h1 h2 => ?_)
  have := h i h1
  rwa [List.getD_eq_getElem _ _ h1, List.getD_eq_getElem _ _ h2] at this

theorem getD_map_abs {corner : Cell} {r : ℕ} (hr : r < corner.length) (b : ℤ) :
    (corner.map (fun c => |c - b|)).getD r 0 = |corner.getD r 0 - b| := by
  rw [List.getD_eq_getElem _ _ (by simpa using hr), List.getD_eq_getElem _ _ hr,
    List.getElem_map]

/-- The first two cells of an enumerated line determine its span dimensions,
and with them the anchoring corner and the fixed coordinates. -/
theorem line_recovery {d n i : ℕ} (hn : 2 ≤ n) {comb : List ℕ} {vs : List ℤ} {corner : Cell}
    (hcomb : comb ∈ combinations (List.range d) (i + 1))
    (hvs : vs ∈ listProd
      (List.replicate (d - i - 1) ((List.range n).map (fun (k : ℕ) => (k : ℤ)))))
    (hcorner : corner ∈ corners0 (i + 1) n) {l : Line}
    (hl : l = (diagOf n corner).map (fun c => insert_into_tuple c (other_dims d comb) vs)) :
    comb = recovered_comb d l ∧
    (∀ r < comb.length, corner.getD r 0 = (l.getD 0 []).getD (comb.getD r 0) 0) ∧
    (∀ s < (other_dims d comb).length,
      vs.getD s 0 = (l.getD 0 []).getD ((other_dims d comb).getD s 0) 0) := by
  rcases mem_combinations.mp hcomb with ⟨hsub, hclen⟩
  rcases vs_facts hvs with ⟨hvlen, _⟩
  have hcornerlen : corner.length = i + 1 := (mem_corners0.mp hcorner).1
  have hcornernn : ∀ x ∈ corner, 0 ≤ x := fun x hx => corners0_nonneg hcorner (by omega) hx
  have hcornervals := (mem_corners0.mp hcorner).2.1
  have hvother : vs.length = (other_dims d comb).length := by
    rw [hvlen, length_other_dims hsub, hclen]
    omega
  have hcc : corner.length = comb.length := by rw [hcornerlen, hclen]
  -- the first two cells
  have hf : l.getD 0 [] = insert_into_tuple corner (other_dims d comb) vs := by
    rw [hl, diagOf]
    simp
  have hsndcell : l.getD 1 [] =
      insert_into_tuple (corner.map (fun c => |c - (1 : ℤ)|)) (other_dims d comb) vs := by
    rw [hl, diagOf]
    obtain ⟨m, hm⟩ : ∃ m, n - 1 = m + 1 := ⟨n - 2, by omega⟩
    rw [hm, List.range'_succ]
    simp
  have hfc : ∀ r < comb.length, (l.getD 0 []).getD (comb.getD r 0) 0 = corner.getD r 0 := by
    intro r hr
    rw [hf]
    exact insert_into_tuple_getD_comb hsub hcc hvother hr
  have hsc : ∀ r < comb.length,
      (l.getD 1 []).getD (comb.getD r 0) 0 = |corner.getD r 0 - 1| := by
    intro r hr
    rw [hsndcell, insert_into_tuple_getD_comb hsub (by simpa using hcc) hvother hr]
    exact getD_map_abs (by omega) 1
  have hfo : ∀ s < (other_dims d comb).length,
      (l.getD 0 []).getD ((other_dims d comb).getD s 0) 0 = vs.getD s 0 := by
    intro s hs
    rw [hf]
    exact insert_into_tuple_getD_other hsub hcc hvother hs
  have hso : ∀ s < (other_dims d comb).length,
      (l.getD 1 []).getD ((other_dims d comb).getD s 0) 0 = vs.getD s 0 := by
    intro s hs
    rw [hsndcell]
    exact insert_into_tuple_getD_other hsub (by simpa using hcc) hvother hs
  refine ⟨?_, fun r hr => (hfc r hr).symm, fun s hs => (hfo s hs).symm⟩
  refine sorted_lt_ext (comb_pairwise hsub)
    (List.Pairwise.sublist (List.filter_sublist _) (List.pairwise_lt_range d)) ?_
  intro j
  simp only [recovered_comb, List.mem_filter, List.mem_range, decide_eq_true_eq]
  constructor
  · intro hj
    rcases List.mem_iff_getElem.mp hj with ⟨r, hr, hjr⟩
    have hjd : j < d := mem_comb_lt hsub hj
    have hgetd : comb.getD r 0 = j := by rw [List.getD_eq_getElem _ _ hr, hjr]
    refine ⟨hjd, ?_⟩
    rw [← hgetd, hfc r hr, hsc r hr]
    have hcr : corner.getD r 0 ∈ corner := by
      rw [List.getD_eq_getElem _ _ (by omega)]
      exact List.getElem_mem (by omega)
    have h2n : (2 : ℤ) ≤ (n : ℤ) := by exact_mod_cast hn
    rcases hcornervals _ hcr with he | he <;> rw [he] <;> intro hcon
    · norm_num at hcon
    · rw [abs_of_nonneg (by omega : (0 : ℤ) ≤ (n : ℤ) - 1 - 1)] at hcon
      omega
  · rintro ⟨hjd, hne⟩
    by_contra hjc
    have hjo : j ∈ other_dims d comb := mem_other_dims.mpr ⟨hjd, hjc⟩
    rcases List.mem_iff_getElem.mp hjo with ⟨s, hs, hjs⟩
    have hgetd : (other_dims d comb).getD s 0 = j := by
      rw [List.getD_eq_getElem _ _ hs, hjs]
    exact hne (by rw [← hgetd, hfo s hs, hso s hs])

theorem corners0_nodup {m n : ℕ} (hn : 2 ≤ n) : (corners0 m n).Nodup := by
  refine List.Nodup.filter _ (nodup_listProd ?_)
  intro l hl
  rcases List.eq_of_mem_replicate hl with rfl
  simp only [List.nodup_cons, List.mem_singleton, List.not_mem_nil, not_false_iff,
    List.nodup_nil, and_true]
  intro hcon
  have : (2 : ℤ) ≤ (n : ℤ) := by exact_mod_cast hn
  omega

theorem head_of_block_line {n : ℕ} {corner : Cell} {emb : Cell → Cell} :
    ((diagOf n corner).map emb).getD 0 [] = emb corner := by
  rw [diagOf]
  simp

theorem nodup_get_lines_i_coord {d n i : ℕ} (hn : 2 ≤ n) :
    (get_lines_i_coord d n i).Nodup := by
  rw [get_lines_i_coord]
  refine List.nodup_flatMap.mpr ⟨?_, ?_⟩
  · intro comb hcomb
    refine List.nodup_flatMap.mpr ⟨?_, ?_⟩
    · intro vs hvs
      rw [get_diagonals_coord, List.map_map]
      refine (corners0_nodup hn).map_on ?_
      intro c1 h1 c2 h2 heq
      simp only [Function.comp_apply] at heq
      have hhead := congrArg (fun t => t.getD 0 ([] : Cell)) heq
      simp only [head_of_block_line] at hhead
      exact insert_into_tuple_inj hhead
    · refine List.Pairwise.imp_of_mem ?_ ((nodup_listProd ?_) :
        (listProd (List.replicate (d - i - 1)
          ((List.range n).map (fun (k : ℕ) => (k : ℤ))))).Nodup)
      · intro vs1 vs2 hm1 hm2 hne
        simp only [Function.onFun, List.disjoint_left]
        intro l hl1 hl2
        rcases List.mem_map.mp hl1 with ⟨diag1, hd1, rfl⟩
        rcases List.mem_map.mp hl2 with ⟨diag2, hd2, heq⟩
        rw [get_diagonals_coord] at hd1 hd2
        rcases List.mem_map.mp hd1 with ⟨c1, hc1, rfl⟩
        rcases List.mem_map.mp hd2 with ⟨c2, hc2, rfl⟩
        obtain ⟨_, _, h1c⟩ := line_recovery hn hcomb hm1 hc1 rfl
        obtain ⟨_, _, h2c⟩ := line_recovery hn hcomb hm2 hc2 heq.symm
        have hlen1 : vs1.length = (other_dims d comb).length := by
          rcases mem_combinations.mp hcomb with ⟨hsub, hclen⟩
          rw [(vs_facts hm1).1, length_other_dims hsub, hclen]
          omega
        have hlen2 : vs2.length = (other_dims d comb).length := by
          rcases mem_combinations.mp hcomb with ⟨hsub, hclen⟩
          rw [(vs_facts hm2).1, length_other_dims hsub, hclen]
          omega
        refine hne (ext_getD (by omega) ?_)
        intro r hr
        rw [h1c r (by omega), h2c r (by omega)]
      · intro f hf
        rcases List.eq_of_mem_replicate hf with rfl
        exact (List.nodup_range n).map (fun a b h => by exact_mod_cast h)
  · refine List.Pairwise.imp_of_mem ?_
      (nodup_combinations (List.nodup_range d) (i + 1))
    intro comb1 comb2 hm1 hm2 hne
    simp only [Function.onFun, List.disjoint_left]
    intro l hl1 hl2
    rcases List.mem_flatMap.mp hl1 with ⟨vs1, hvs1, hb1⟩
    rcases List.mem_flatMap.mp hl2 with ⟨vs2, hvs2, hb2⟩
    rcases List.mem_map.mp hb1 with ⟨diag1, hd1, rfl⟩
    rcases List.mem_map.mp hb2 with ⟨diag2, hd2, heq⟩
    rw [get_diagonals_coord] at hd1 hd2
    rcases List.mem_map.mp hd1 with ⟨c1, hc1, rfl⟩
    rcases List.mem_map.mp hd2 with ⟨c2, hc2, rfl⟩
    obtain ⟨h1a, _, _⟩ := line_recovery hn hm1 hvs1 hc1 rfl
    obtain ⟨h2a, _, _⟩ := line_recovery hn hm2 hvs2 hc2 heq.symm
    exact hne (h1a.trans h2a.symm)

theorem nodup_get_lines_coord {d n : ℕ} (hn : 2 ≤ n) :
    (get_lines_coord d n).Nodup := by
  rw [get_lines_coord]
  refine List.nodup_flatMap.mpr ⟨fun i _ => nodup_get_lines_i_coord hn, ?_⟩
  refine List.Pairwise.imp_of_mem ?_ (List.nodup_range d)
  intro i1 i2 _ _ hne
  simp only [Function.onFun, List.disjoint_left]
  intro l hl1 hl2
  rcases mem_get_lines_i_coord.mp hl1 with ⟨comb1, hcomb1, vs1, hvs1, c1, hc1, rfl⟩
  rcases mem_get_lines_i_coord.mp hl2 with ⟨comb2, hcomb2, vs2, hvs2, c2, hc2, heq⟩
  obtain ⟨h1a, _, _⟩ := line_recovery hn hcomb1 hvs1 hc1 rfl
  obtain ⟨h2a, _, _⟩ := line_recovery hn hcomb2 hvs2 hc2 heq
  have hlen1 := (mem_combinations.mp hcomb1).2
  have hlen2 := (mem_combinations.mp hcomb2).2
  have : comb1 = comb2 := h1a.trans h2a.symm
  apply hne
  have := congrArg List.length this
  omega

/-! ### Scope facts (claim C3) -/

theorem mem_cells_coord {d n : ℕ} {c : Cell} :
    c ∈ cells_coord d n ↔ c.length = d ∧ ∀ x ∈ c, 0 ≤ x ∧ x < (n : ℤ) := by
  constructor
  · intro hc
    exact ⟨length_of_mem_listProd hc |>.trans (by simp), (vs_facts hc).2⟩
  · rintro ⟨hlen, hvals⟩
    refine mem_listProd.mpr ?_
    rw [List.forall₂_iff_get]
    refine ⟨by simpa using hlen, fun k h1 h2 => ?_⟩
    simp only [List.get_eq_getElem, List.getElem_replicate, List.mem_map, List.mem_range]
    have hmem : c.get ⟨k, h1⟩ ∈ c := List.get_mem c k h1
    rcases hvals (c.get ⟨k, h1⟩) hmem with ⟨hge, hlt⟩
    refine ⟨Int.toNat (c.get ⟨k, h1⟩), ?_, ?_⟩ <;>
      simp only [List.get_eq_getElem] at hge hlt ⊢ <;> omega

theorem nodup_cells_coord {d n : ℕ} : (cells_coord d n).Nodup := by
  refine nodup_listProd ?_
  intro f hf
  rcases List.eq_of_mem_replicate hf with rfl
  exact (List.nodup_range n).map (fun a b h => by exact_mod_cast h)

theorem sum_ite_mem (l : Line) :
    ∀ cells : List Cell,
      (cells.map (fun c => if decide (c ∈ l) = true then 1 else 0)).sum =
        cells.countP (fun c => decide (c ∈ l)) := by
  intro cells
  induction cells with
  | nil => simp
  | cons c cs ihc =>
    rw [List.map_cons, List.sum_cons, List.countP_cons, ihc]
    by_cases h : c ∈ l <;> simp [h] <;> omega

theorem sum_countP_comm (cells : List Cell) (lines : List Line) :
    (cells.map (fun c => lines.countP (fun l => decide (c ∈ l)))).sum =
      (lines.map (fun l => cells.countP (fun c => decide (c ∈ l)))).sum := by
  induction lines with
  | nil => simp
  | cons l ls ih =>
    have hsplit : ∀ c : Cell, (l :: ls).countP (fun l2 => decide (c ∈ l2)) =
        ls.countP (fun l2 => decide (c ∈ l2)) + (if decide (c ∈ l) = true then 1 else 0) :=
      fun c => List.countP_cons _ _ _
    calc (cells.map (fun c => (l :: ls).countP (fun l2 => decide (c ∈ l2)))).sum
        = (cells.map (fun c => ls.countP (fun l2 => decide (c ∈ l2)) +
            (if decide (c ∈ l) = true then 1 else 0))).sum := by
          exact congrArg List.sum (List.map_congr_left (fun c _ => hsplit c))
      _ = (cells.map (fun c => ls.countP (fun l2 => decide (c ∈ l2)))).sum +
            (cells.map (fun c => if decide (c ∈ l) = true then 1 else 0)).sum :=
          List.sum_map_add
      _ = (ls.map (fun l2 => cells.countP (fun c => decide (c ∈ l2)))).sum +
            cells.countP (fun c => decide (c ∈ l)) := by
          rw [ih, sum_ite_mem]
      _ = ((l :: ls).map (fun l2 => cells.countP (fun c => decide (c ∈ l2)))).sum := by
          simp
          omega

theorem sum_map_const_nat {α : Type} {l : List α} {f : α → ℕ} {k : ℕ}
    (h : ∀ x ∈ l, f x = k) : (l.map f).sum = l.length * k := by
  induction l with
  | nil => simp
  | cons x xs ih =>
    rw [List.map_cons, List.sum_cons, h x (by simp), ih (fun y hy => h y (by simp [hy]))]
    simp [Nat.succ_mul]
    omega

theorem count_cells_in_line {d n : ℕ} (hn : 1 ≤ n) {l : Line}
    (hl : l ∈ get_lines_coord d n) :
    (cells_coord d n).countP (fun c => decide (c ∈ l)) = n := by
  rcases line_wf hn hl with ⟨hlen, hcells, hnd⟩
  rw [List.countP_eq_length_filter]
  have hfn : ((cells_coord d n).filter (fun c => decide (c ∈ l))).Nodup :=
    nodup_cells_coord.filter _
  have hmem : ∀ x : Cell, x ∈ (cells_coord d n).filter (fun c => decide (c ∈ l)) ↔ x ∈ l := by
    intro x
    simp only [List.mem_filter, decide_eq_true_eq]
    constructor
    · exact fun h => h.2
    · intro hx
      exact ⟨mem_cells_coord.mpr (hcells x hx), hx⟩
  have hft : ((cells_coord d n).filter (fun c => decide (c ∈ l))).toFinset = l.toFinset := by
    ext x
    rw [List.mem_toFinset, List.mem_toFinset, hmem]
  have h1 := List.toFinset_card_of_nodup hfn
  have h2 := List.toFinset_card_of_nodup hnd
  rw [hft, h2, hlen] at h1
  omega

theorem scope_sum {d n : ℕ} (hn : 2 ≤ n) :
    ((cells_coord d n).map
      (fun c => (get_scopes_coord (get_lines_coord d n) c).length)).sum =
    num_lines d n * n := by
  have h1 : ∀ c : Cell, (get_scopes_coord (get_lines_coord d n) c).length =
      (get_lines_coord d n).countP (fun l => decide (c ∈ l)) := by
    intro c
    rw [get_scopes_coord, List.countP_eq_length_filter]
  calc ((cells_coord d n).map
        (fun c => (get_scopes_coord (get_lines_coord d n) c).length)).sum
      = ((cells_coord d n).map
          (fun c => (get_lines_coord d n).countP (fun l => decide (c ∈ l)))).sum := by
        exact congrArg List.sum (List.map_congr_left (fun c _ => h1 c))
    _ = ((get_lines_coord d n).map
          (fun l => (cells_coord d n).countP (fun c => decide (c ∈ l)))).sum :=
        sum_countP_comm _ _
    _ = (get_lines_coord d n).length * n :=
        sum_map_const_nat (fun l hl => count_cells_in_line (by omega) hl)
    _ = num_lines d n * n := by rw [length_get_lines_coord hn]

/-! ### Claim C3: scope completeness and consistency -/

/-- C3 (counterexample): at `d = 1, n = 1` the duplicated degenerate line
makes the scope sum 2 instead of `num_lines(1,1) * 1 = 1`, and the single
cell's scope holds the same line twice. -/
theorem claim_C3_counterexample :
    ((cells_coord 1 1).map (fun c => ((structure_coord 1 1).2 c).length)).sum ≠
        num_lines 1 1 * 1 ∧
      ¬ ((structure_coord 1 1).2 [0]).Nodup := by decide

/-- C3 (amended): for every `d ≥ 1` and `n ≥ 2` (in particular the tested
grid minus `n = 1`): a cell is on a line iff the line is in the cell's scope;
the scope lengths over all cells sum to `num_lines(d, n) * n`; and no line
appears twice in one cell's scope. -/
theorem claim_C3 (d n : ℕ) (_hd : 1 ≤ d) (hn : 2 ≤ n) :
    (∀ (c : Cell), ∀ l ∈ (structure_coord d n).1, (c ∈ l ↔ l ∈ (structure_coord d n).2 c)) ∧
    ((cells_coord d n).map (fun c => ((structure_coord d n).2 c).length)).sum =
      num_lines d n * n ∧
    (∀ c : Cell, ((structure_coord d n).2 c).Nodup) := by
  refine ⟨?_, scope_sum hn, ?_⟩
  · intro c l hl
    simp only [structure_coord, get_scopes_coord, List.mem_filter, decide_eq_true_eq]
    exact ⟨fun h => ⟨hl, h⟩, fun h => h.2⟩
  · intro c
    exact (nodup_get_lines_coord hn).filter _

/-- C3 (witness): the amended claim applied at `d = 2, n = 3`: the scope
lengths over the nine cells sum to `8 * 3 = 24` and each scope is
duplicate-free. -/
theorem claim_C3_witness :
    (∀ (c : Cell), ∀ l ∈ (structure_coord 2 3).1, (c ∈ l ↔ l ∈ (structure_coord 2 3).2 c)) ∧
    ((cells_coord 2 3).map (fun c => ((structure_coord 2 3).2 c).length)).sum =
      num_lines 2 3 * 3 ∧
    (∀ c : Cell, ((structure_coord 2 3).2 c).Nodup) :=
  claim_C3 2 3 (by decide) (by decide)


/-! ### Claim C1: the five-move win scenario -/

/-- C1: the claim says the five-move scenario `(1,1) (1,2) (2,2) (2,1) (3,3)`
on `d = 2, n = 3` ends with the state `WIN_P1` (the win credited to player 0,
who completed the diagonal). In the source, `move` advances `active_player`
BEFORE the win check and then credits `WIN_P2 if self.active_player else
WIN_P1`, so the finished game reports `WIN_P2`: the win is credited to the
player who did NOT complete the diagonal. (The older `src/TicTacToe.py`
checks the win before toggling, confirming the intent.) -/
theorem claim_C1 :
    (TTT.playMoves (TTT.init 2 3 1) movesC1).map (fun g => g.state) =
        some GameState.WIN_P2 ∧
      (TTT.playMoves (TTT.init 2 3 1) movesC1).map (fun g => g.state) ≠
        some GameState.WIN_P1 := by
  decide

/-! ### Claim C6: the misere variant (modelled from the spec) -/

/-- C6 (spec-modelled): the misere-capable constructor is not in `src/`; the
spec's misere game is modelled by `SpecGame`. Under `misere = true` the same
five-move scenario records the line-completing player (player 0) as the
loser (`WIN_P2`), while with `misere = false` the identical mechanism
records `WIN_P1`. -/
theorem claim_C6 :
    (SpecGame.playMoves (SpecGame.init 2 3 1 true) movesC1).map
        (fun G => G.base.state) = some GameState.WIN_P2 ∧
      (SpecGame.playMoves (SpecGame.init 2 3 1 false) movesC1).map
        (fun G => G.base.state) = some GameState.WIN_P1 := by
  decide

/-! ### Claim C7: game-over and duplicate-move errors -/

/-- C7: `move` raises the game-over error whenever the state is not
`IN_PROGRESS`, raises the duplicate-move error whenever the resolved target
cell is already played (`abs(board[cell]) > MOVE_BASE`), and in both cases
returns the game state completely unchanged. -/
theorem claim_C7 (g : TTT) (cell : MoveInput) (off : ℤ) :
    (g.state ≠ GameState.IN_PROGRESS →
      TTT.move g cell off = (g, some MoveErr.gameOver)) ∧
    (∀ t_cell cc : Cell, g.state = GameState.IN_PROGRESS →
      (match cell with
       | MoveInput.str s => str_to_tuple g.d g.n s off
       | MoveInput.tup c => some c) = some t_cell →
      np_resolve g.d g.n t_cell = some cc →
      MOVE_BASE < |g.board cc| →
      TTT.move g cell off = (g, some MoveErr.alreadyPlayed)) := by
  constructor
  · intro h
    unfold TTT.move
    rw [if_pos h]
  · intro t_cell cc hst hres hnp hv
    unfold TTT.move
    rw [if_neg (by simp [hst])]
    simp only [hres, hnp, if_pos hv]

/-- C7 (witness): at `d = 2, n = 3`, a move after the finished five-move
scenario raises the game-over error, and replaying `(1,1)` after the single
move `'11'` raises the duplicate-move error; both leave the state unchanged. -/
theorem claim_C7_witness :
    TTT.move gDemoWon (MoveInput.tup [0, 0]) 1 = (gDemoWon, some MoveErr.gameOver) ∧
      TTT.move gDemoDup (MoveInput.tup [0, 0]) 1 = (gDemoDup, some MoveErr.alreadyPlayed) := by
  constructor
  · exact (claim_C7 gDemoWon (MoveInput.tup [0, 0]) 1).1 (by decide)
  · exact (claim_C7 gDemoDup (MoveInput.tup [0, 0]) 1).2 [0, 0] [0, 0] (by decide) rfl
      (by decide) (by decide)


/-! ### Claim C5: the win check and the `2n - 1` move threshold -/

/-- C5 (counterexample): with `moves_per_turn = 2` on `d = 2, n = 2`, player 0
completes the line `{(0,0), (0,1)}` with their second move, but
`len(moves) = 2 < 2n - 1 = 3` so `is_win` returns early and the state stays
`IN_PROGRESS`: win detection skips a completed line when fewer than `2n - 1`
moves have been played, so the claim's "never skips ... regardless of the
total number of moves" is false for `moves_per_turn >= 2`. -/
theorem claim_C5_counterexample :
    (TTT.playMoves (TTT.init 2 2 2) [MoveInput.tup [0, 0], MoveInput.tup [0, 1]]).map
        (fun g => (g.state,
          ((g.moves.getLast?).map (fun m =>
            (get_scopes_np g.d g.n m.2).any (fun line =>
              line.countP (fun p => decide (MOVE_BASE < g.board p)) == g.n ||
              line.countP (fun p => decide (g.board p < -MOVE_BASE)) == g.n))).getD false)) =
      some (GameState.IN_PROGRESS, true) := by
  decide

/-- Inversion of a successful `move` call: the guards all passed and the
result is one of the two terminal assignments on the post-bookkeeping
state. -/
theorem move_success (g : TTT) (cell : MoveInput) (off : ℤ) (g2 : TTT)
    (hmv : TTT.move g cell off = (g2, none)) :
    ∃ t_cell cc : Cell,
      g.state = GameState.IN_PROGRESS ∧
      (match cell with
       | MoveInput.str s => str_to_tuple g.d g.n s off
       | MoveInput.tup c => some c) = some t_cell ∧
      np_resolve g.d g.n t_cell = some cc ∧
      ¬ (MOVE_BASE < |g.board cc|) ∧
      (let mp := mpAdd g.moves_played g.active_player 1
       let sgn : ℤ := if g.active_player = 1 then -1 else 1
       let b2 := Function.update g.board cc (sgn * (mpGet mp g.active_player + MOVE_BASE))
       let g1 : TTT := { g with moves_played := mp, board := b2,
                                moves := g.moves ++ [(g.active_player, t_cell)] }
       let gmid : TTT := if g1.active_moves + 1 = g1.moves_per_turn
                   then { g1 with active_moves := 0, active_player := pyNotInt g1.active_player }
                   else { g1 with active_moves := g1.active_moves + 1 }
       (∃ line, TTT.win_line_check gmid = some line ∧
          g2 = { gmid with state := if gmid.active_player ≠ 0 then GameState.WIN_P2
                                    else GameState.WIN_P1,
                           win_line := line }) ∨
       (TTT.win_line_check gmid = none ∧
          g2 = { gmid with state := if gmid.moves.length = gmid.n ^ gmid.d
                                    then GameState.TIE else GameState.IN_PROGRESS })) := by
  unfold TTT.move at hmv
  split at hmv
  · exact absurd (congrArg Prod.snd hmv) (by simp)
  · rename_i hst
    rw [not_not] at hst
    cases cell with
    | str s =>
      cases hres : str_to_tuple g.d g.n s off with
      | none =>
        simp only [hres] at hmv
        exact absurd (congrArg Prod.snd hmv) (by simp)
      | some t =>
        simp only [hres] at hmv
        cases hnp : np_resolve g.d g.n t with
        | none =>
          simp only [hnp] at hmv
          exact absurd (congrArg Prod.snd hmv) (by simp)
        | some cc =>
          simp only [hnp] at hmv
          by_cases hv : MOVE_BASE < |g.board cc|
          · rw [if_pos hv] at hmv
            exact absurd (congrArg Prod.snd hmv) (by simp)
          · rw [if_neg hv] at hmv
            refine ⟨t, cc, hst, hres, hnp, hv, ?_⟩
            dsimp only
            by_cases ham : g.active_moves + 1 = g.moves_per_turn
            · rw [if_pos ham] at hmv ⊢
              dsimp only at hmv ⊢
              split at hmv
              · rename_i line hline
                left
                exact ⟨line, hline, (congrArg Prod.fst hmv).symm⟩
              · rename_i hnone
                right
                refine ⟨hnone, ?_⟩
                have h := congrArg Prod.fst hmv
                dsimp only at h
                rw [← h]
                split <;> rfl
            · rw [if_neg ham] at hmv ⊢
              dsimp only at hmv ⊢
              split at hmv
              · rename_i line hline
                left
                exact ⟨line, hline, (congrArg Prod.fst hmv).symm⟩
              · rename_i hnone
                right
                refine ⟨hnone, ?_⟩
                have h := congrArg Prod.fst hmv
                dsimp only at h
                rw [← h]
                split <;> rfl
    | tup c =>
      dsimp only at hmv
      cases hnp : np_resolve g.d g.n c with
      | none =>
        simp only [hnp] at hmv
        exact absurd (congrArg Prod.snd hmv) (by simp)
      | some cc =>
        simp only [hnp] at hmv
        by_cases hv : MOVE_BASE < |g.board cc|
        · rw [if_pos hv] at hmv
          exact absurd (congrArg Prod.snd hmv) (by simp)
        · rw [if_neg hv] at hmv
          refine ⟨c, cc, hst, rfl, hnp, hv, ?_⟩
          dsimp only
          by_cases ham : g.active_moves + 1 = g.moves_per_turn
          · rw [if_pos ham] at hmv ⊢
            dsimp only at hmv ⊢
            split at hmv
            · rename_i line hline
              left
              exact ⟨line, hline, (congrArg Prod.fst hmv).symm⟩
            · rename_i hnone
              right
              refine ⟨hnone, ?_⟩
              have h := congrArg Prod.fst hmv
              dsimp only at h
              rw [← h]
              split <;> rfl
          · rw [if_neg ham] at hmv ⊢
            dsimp only at hmv ⊢
            split at hmv
            · rename_i line hline
              left
              exact ⟨line, hline, (congrArg Prod.fst hmv).symm⟩
            · rename_i hnone
              right
              refine ⟨hnone, ?_⟩
              have h := congrArg Prod.fst hmv
              dsimp only at h
              rw [← h]
              split <;> rfl

/-- The win scan reads only the board, the moves list and the dimensions,
so updating `state` (and `win_line`) does not change it. -/
theorem win_line_check_set_state (g : TTT) (st : GameState) :
    TTT.win_line_check { g with state := st } = TTT.win_line_check g := rfl

/-- C5 (amended): the win check never skips a completed line PROVIDED at
least `2n - 1` moves are on the board after the move: whenever `move`
succeeds and some line in the scope of the cell just played has all `n`
cells marked by one player, the resulting state is a win state. -/
theorem claim_C5 (g : TTT) (cell : MoveInput) (off : ℤ) (g2 : TTT)
    (hmv : TTT.move g cell off = (g2, none))
    (hthr : 2 * g2.n - 1 ≤ g2.moves.length)
    (hwin : ((g2.moves.getLast?).map (fun m =>
        (get_scopes_np g2.d g2.n m.2).any (fun line =>
          line.countP (fun p => decide (MOVE_BASE < g2.board p)) == g2.n ||
          line.countP (fun p => decide (g2.board p < -MOVE_BASE)) == g2.n))).getD false
        = true) :
    g2.state = GameState.WIN_P1 ∨ g2.state = GameState.WIN_P2 := by
  obtain ⟨t, cc, hst, hres2, hnp, hv, hcase⟩ := move_success g cell off g2 hmv
  dsimp only at hcase
  rcases hcase with ⟨line, hline, hg2⟩ | ⟨hnone, hg2⟩
  · subst hg2
    dsimp only
    split <;> (try dsimp only) <;> split <;> first | (left; rfl) | (right; rfl)
  · exfalso
    subst hg2
    try dsimp only at hthr hwin
    unfold TTT.win_line_check at hnone
    by_cases ham : g.active_moves + 1 = g.moves_per_turn
    · rw [if_pos ham] at hnone hthr hwin
      try dsimp only at hthr hwin
      try dsimp only at hnone
      rw [if_neg (by omega)] at hnone
      rcases hlast : (g.moves ++ [(g.active_player, t)]).getLast? with _ | m
      · rw [hlast] at hwin
        simp at hwin
      · rw [hlast] at hnone hwin
        simp only [Option.map_some', Option.getD_some] at hwin
        rw [List.any_eq_true] at hwin
        obtain ⟨line, hlmem, hlp⟩ := hwin
        have hfail := List.find?_eq_none.mp hnone line hlmem
        exact absurd hlp (by simpa using hfail)
    · rw [if_neg ham] at hnone hthr hwin
      try dsimp only at hthr hwin
      try dsimp only at hnone
      rw [if_neg (by omega)] at hnone
      rcases hlast : (g.moves ++ [(g.active_player, t)]).getLast? with _ | m
      · rw [hlast] at hwin
        simp at hwin
      · rw [hlast] at hnone hwin
        simp only [Option.map_some', Option.getD_some] at hwin
        rw [List.any_eq_true] at hwin
        obtain ⟨line, hlmem, hlp⟩ := hwin
        have hfail := List.find?_eq_none.mp hnone line hlmem
        exact absurd hlp (by simpa using hfail)

/-- C5 (witness): the amended claim applied to the fifth move of the 2D
scenario, where the threshold is met and the diagonal is completed. -/
theorem claim_C5_witness :
    (TTT.move gC5pre (MoveInput.str ['3', '3']) 1).1.state = GameState.WIN_P1 ∨
      (TTT.move gC5pre (MoveInput.str ['3', '3']) 1).1.state = GameState.WIN_P2 := by
  have h2 : (TTT.move gC5pre (MoveInput.str ['3', '3']) 1).2 = none := by decide
  refine claim_C5 gC5pre (MoveInput.str ['3', '3']) 1 _ ?_ (by decide) (by decide)
  rw [← h2]


/-! ### Claim C4: the move/undo round trip -/

theorem TTT.ext1 {g h : TTT} (hd : g.d = h.d) (hn : g.n = h.n)
    (hmt : g.moves_per_turn = h.moves_per_turn) (hb : g.board = h.board)
    (hs : g.state = h.state) (hw : g.win_line = h.win_line)
    (hap : g.active_player = h.active_player) (ham : g.active_moves = h.active_moves)
    (hmv : g.moves = h.moves) (hmp : g.moves_played = h.moves_played) : g = h := by
  cases g; cases h
  simp_all

theorem eraseWin_idem (g : TTT) : TTT.eraseWin (TTT.eraseWin g) = TTT.eraseWin g := rfl

theorem undo_eraseWin (g : TTT) (r : ℤ) :
    TTT.undo (TTT.eraseWin g) r = TTT.eraseWin (TTT.undo g r) := by
  unfold TTT.undo TTT.eraseWin
  dsimp only
  split <;> [rfl; (split <;> rfl)]

theorem mpGet_mpAdd (mp : ℤ × ℤ) (p : ℕ) (x : ℤ) :
    mpGet (mpAdd mp p x) p = mpGet mp p + x := by
  by_cases hp : p = 0 <;> simp [mpGet, mpAdd, hp]

theorem mpAdd_cancel (mp : ℤ × ℤ) (p : ℕ) :
    mpAdd (mpAdd mp p 1) p (-1) = mp := by
  by_cases hp : p = 0 <;> simp [mpAdd, hp]

theorem pyNotInt_le_one (p : ℕ) : pyNotInt p ≤ 1 := by
  unfold pyNotInt
  split <;> omega

theorem pyNotInt_invol {p : ℕ} (hp : p ≤ 1) : pyNotInt (pyNotInt p) = p := by
  interval_cases p <;> rfl

theorem mpGet_nonneg {mp : ℤ × ℤ} (h1 : 0 ≤ mp.1) (h2 : 0 ≤ mp.2) (p : ℕ) :
    0 ≤ mpGet mp p := by
  unfold mpGet
  split <;> assumption

theorem move_wf (g : TTT) (cell : MoveInput) (off : ℤ) (g2 : TTT)
    (hwf : TTT.wf g) (hmv : TTT.move g cell off = (g2, none)) : TTT.wf g2 := by
  obtain ⟨hb, hap, hmp1, hmp2⟩ := hwf
  obtain ⟨t, cc, hst, hres, hnp, hv, hcase⟩ := move_success g cell off g2 hmv
  dsimp only at hcase
  have hm : 0 ≤ mpGet g.moves_played g.active_player := mpGet_nonneg hmp1 hmp2 _
  have hboard : ∀ c, Function.update g.board cc
      ((if g.active_player = 1 then (-1 : ℤ) else 1) *
        (mpGet (mpAdd g.moves_played g.active_player 1) g.active_player + MOVE_BASE)) c = 0 ∨
      MOVE_BASE < |Function.update g.board cc
      ((if g.active_player = 1 then (-1 : ℤ) else 1) *
        (mpGet (mpAdd g.moves_played g.active_player 1) g.active_player + MOVE_BASE)) c| := by
    intro c
    rw [Function.update_apply]
    split
    · right
      rw [mpGet_mpAdd]
      have hMB : MOVE_BASE = 99 := rfl
      have hy := hm
      by_cases hap1 : g.active_player = 1
      · rw [hap1] at hy ⊢
        rw [if_pos rfl, neg_one_mul, abs_neg, abs_of_nonneg (by rw [hMB]; omega)]
        rw [hMB]; omega
      · rw [if_neg hap1, one_mul, abs_of_nonneg (by rw [hMB]; omega)]
        rw [hMB]; omega
    · exact hb c
  have hmpadd1 : 0 ≤ (mpAdd g.moves_played g.active_player 1).1 := by
    unfold mpAdd
    split <;> dsimp only <;> omega
  have hmpadd2 : 0 ≤ (mpAdd g.moves_played g.active_player 1).2 := by
    unfold mpAdd
    split <;> dsimp only <;> omega
  rcases hcase with ⟨line, _, hg2⟩ | ⟨_, hg2⟩ <;> subst hg2 <;>
    by_cases ham : g.active_moves + 1 = g.moves_per_turn <;>
      [rw [if_pos ham]; rw [if_neg ham]; rw [if_pos ham]; rw [if_neg ham]] <;>
    exact ⟨hboard, by first | exact pyNotInt_le_one _ | exact hap, hmpadd1, hmpadd2⟩

theorem move_undo (g : TTT) (cell : MoveInput) (off : ℤ) (g2 : TTT)
    (hwf : TTT.wf g) (hmv : TTT.move g cell off = (g2, none)) :
    TTT.eraseWin (TTT.undo g2 0) = TTT.eraseWin g := by
  obtain ⟨hb, hap, hmp1, hmp2⟩ := hwf
  obtain ⟨t, cc, hst, hres, hnp, hv, hcase⟩ := move_success g cell off g2 hmv
  dsimp only at hcase
  have hb0 : g.board cc = 0 := by
    rcases hb cc with h0 | hbig
    · exact h0
    · exact absurd hbig hv
  have hbd : Function.update (Function.update g.board cc
      ((if g.active_player = 1 then (-1 : ℤ) else 1) *
        (mpGet (mpAdd g.moves_played g.active_player 1) g.active_player + MOVE_BASE))) cc 0 =
      g.board := by
    rw [Function.update_idem]
    exact Function.update_eq_self_iff.mpr hb0.symm
  rcases hcase with ⟨line, _, hg2⟩ | ⟨_, hg2⟩ <;> subst hg2 <;>
    by_cases ham : g.active_moves + 1 = g.moves_per_turn <;>
      [rw [if_pos ham]; rw [if_neg ham]; rw [if_pos ham]; rw [if_neg ham]] <;>
  · unfold TTT.undo
    dsimp only
    rw [if_neg (by simp)]
    first
      | (rw [if_pos rfl]
         dsimp only
         rw [List.getLast?_concat]
         simp only [Option.map_some', Option.getD_some]
         rw [hnp, pyNotInt_invol hap, mpAdd_cancel]
         refine TTT.ext1 rfl rfl rfl ?_ hst.symm rfl rfl ?_ ?_ rfl <;>
           dsimp only [TTT.eraseWin]
         · exact hbd
         · omega
         · exact List.dropLast_concat)
      | (rw [if_neg (by omega)]
         dsimp only
         rw [List.getLast?_concat]
         simp only [Option.map_some', Option.getD_some]
         rw [hnp, mpAdd_cancel]
         refine TTT.ext1 rfl rfl rfl ?_ hst.symm rfl rfl ?_ ?_ rfl <;>
           dsimp only [TTT.eraseWin]
         · exact hbd
         · omega
         · exact List.dropLast_concat)

theorem undoN_succ_outer : ∀ (k : ℕ) (g : TTT),
    TTT.undoN g (k + 1) = TTT.undo (TTT.undoN g k) 0 := by
  intro k
  induction k with
  | zero => intro g; rfl
  | succ k ih =>
    intro g
    show TTT.undoN (TTT.undo g 0) (k + 1) = _
    rw [ih (TTT.undo g 0)]
    rfl

theorem playMoves_undoN : ∀ (ms : List MoveInput) (g gk : TTT),
    TTT.wf g → TTT.playMoves g ms = some gk →
      TTT.eraseWin (TTT.undoN gk ms.length) = TTT.eraseWin g := by
  intro ms
  induction ms with
  | nil =>
    intro g gk _ h
    simp only [TTT.playMoves, Option.some.injEq] at h
    rw [← h]
    rfl
  | cons i rest ih =>
    intro g gk hwf h
    unfold TTT.playMoves at h
    rcases hm : TTT.move g i 1 with ⟨g1, e⟩
    rw [hm] at h
    cases e with
    | some err => simp at h
    | none =>
      have ihr := ih g1 gk (move_wf g i 1 g1 hwf hm) h
      have hchain : TTT.undoN gk (rest.length + 1) =
          TTT.undo (TTT.undoN gk rest.length) 0 := undoN_succ_outer _ _
      calc TTT.eraseWin (TTT.undoN gk (i :: rest).length)
          = TTT.eraseWin (TTT.undo (TTT.undoN gk rest.length) 0) := by
            rw [List.length_cons, hchain]
        _ = TTT.eraseWin (TTT.undo (TTT.eraseWin (TTT.undoN gk rest.length)) 0) := by
            rw [undo_eraseWin, eraseWin_idem]
        _ = TTT.eraseWin (TTT.undo (TTT.eraseWin g1) 0) := by rw [ihr]
        _ = TTT.eraseWin (TTT.undo g1 0) := by rw [undo_eraseWin, eraseWin_idem]
        _ = TTT.eraseWin g := move_undo g i 1 g1 hwf hm

/-- C4: any sequence of `k` successful `move` calls followed by `k` calls to
`undo()` with the default `replace = 0` restores the initial state exactly:
board all zeros, `moves_played = (0, 0)`, `active_player = 0`,
`active_moves = 0`, empty moves list and state `IN_PROGRESS` (any `d`, `n`,
`moves_per_turn`, including sequences ending in a win or tie). -/
theorem claim_C4 (d n mpt : ℕ) (ms : List MoveInput) (gk : TTT)
    (h : TTT.playMoves (TTT.init d n mpt) ms = some gk) :
    (TTT.undoN gk ms.length).state = GameState.IN_PROGRESS ∧
      (∀ c, (TTT.undoN gk ms.length).board c = 0) ∧
      (TTT.undoN gk ms.length).moves_played = (0, 0) ∧
      (TTT.undoN gk ms.length).active_player = 0 ∧
      (TTT.undoN gk ms.length).active_moves = 0 ∧
      (TTT.undoN gk ms.length).moves = [] := by
  have hwf : TTT.wf (TTT.init d n mpt) :=
    ⟨fun c => Or.inl rfl, by norm_num [TTT.init, TTT.reset], by norm_num [TTT.init, TTT.reset],
      by norm_num [TTT.init, TTT.reset]⟩
  have key := playMoves_undoN ms (TTT.init d n mpt) gk hwf h
  refine ⟨?_, fun c => ?_, ?_, ?_, ?_, ?_⟩
  · exact congrArg TTT.state key
  · exact congrFun (congrArg TTT.board key) c
  · exact congrArg TTT.moves_played key
  · exact congrArg TTT.active_player key
  · exact congrArg TTT.active_moves key
  · exact congrArg TTT.moves key

/-- C4 (witness): the round trip applied to the three-move prefix of the 2D
scenario. -/
theorem claim_C4_witness :
    (TTT.undoN gC4post 3).state = GameState.IN_PROGRESS ∧
      (∀ c, (TTT.undoN gC4post 3).board c = 0) ∧
      (TTT.undoN gC4post 3).moves_played = (0, 0) ∧
      (TTT.undoN gC4post 3).active_player = 0 ∧
      (TTT.undoN gC4post 3).active_moves = 0 ∧
      (TTT.undoN gC4post 3).moves = [] :=
  claim_C4 2 3 1 (movesC1.take 3) gC4post rfl


/-! ### Claim C8: unknown-move errors -/

theorem mapM_np_index {n : ℕ} : ∀ l : Cell, (∀ x ∈ l, 0 ≤ x ∧ x < (n : ℤ)) →
    l.mapM (np_index n) = some l := by
  intro l
  induction l with
  | nil => intro _; rfl
  | cons x xs ih =>
    intro h
    have hx : np_index n x = some x := by
      unfold np_index
      rw [if_pos (h x (List.mem_cons_self x xs))]
    rw [List.mapM_cons, hx, ih (fun y hy => h y (List.mem_cons_of_mem x hy))]
    rfl

theorem str_to_tuple_spec {d n : ℕ} {s : List Char} {off : ℤ} {t : Cell}
    (h : str_to_tuple d n s off = some t) :
    t.length = d ∧ ∀ x ∈ t, 0 ≤ x ∧ x < (n : ℤ) := by
  unfold str_to_tuple at h
  by_cases hd : s.all Char.isDigit
  · rw [if_pos hd] at h
    by_cases h9 : 9 < n
    · rw [if_pos h9] at h
      simp at h
    · rw [if_neg h9] at h
      dsimp only at h
      split at h
      · rename_i hlen
        split at h
        · rename_i hall
          have ht := Option.some.inj h
          subst ht
          refine ⟨hlen, fun x hx => ?_⟩
          simpa using List.all_eq_true.mp hall x hx
        · exact absurd h (by simp)
      · exact absurd h (by simp)
  · rw [if_neg hd] at h
    dsimp only at h
    split at h
    · rename_i hlen
      split at h
      · rename_i hall
        have ht := Option.some.inj h
        subst ht
        refine ⟨hlen, fun x hx => ?_⟩
        simpa using List.all_eq_true.mp hall x hx
      · exact absurd h (by simp)
    · exact absurd h (by simp)

theorem str_to_tuple_resolve {d n : ℕ} {s : List Char} {off : ℤ} {t : Cell}
    (h : str_to_tuple d n s off = some t) : np_resolve d n t = some t := by
  obtain ⟨hlen, hvals⟩ := str_to_tuple_spec h
  unfold np_resolve
  rw [if_pos hlen]
  exact mapM_np_index t hvals

theorem str_to_tuple_none_iff {d n : ℕ} {s : List Char} {off : ℤ} :
    str_to_tuple d n s off = none ↔ unknown_move_spec d n s off := by
  unfold str_to_tuple unknown_move_spec
  by_cases hd : s.all Char.isDigit
  · have hpc : parsed_coords n s off = s.map (fun ch => digitVal ch - off) := by
      unfold parsed_coords
      rw [if_pos hd]
    rw [if_pos hd, hpc]
    by_cases h9 : 9 < n
    · rw [if_pos h9]
      exact iff_of_true rfl (Or.inl ⟨hd, h9⟩)
    · rw [if_neg h9]
      dsimp only
      by_cases hlen : (s.map (fun ch => digitVal ch - off)).length = d
      · rw [if_pos hlen]
        by_cases hall : ((s.map (fun ch => digitVal ch - off)).all
            (fun t => decide (0 ≤ t ∧ t < (n : ℤ)))) = true
        · rw [if_pos hall]
          refine iff_of_false (by simp) ?_
          rintro (⟨_, h9c⟩ | hlc | ⟨x, hx, hnx⟩)
          · exact h9 h9c
          · exact hlc hlen
          · exact hnx (by simpa using List.all_eq_true.mp hall x hx)
        · rw [if_neg hall]
          refine iff_of_true rfl (Or.inr (Or.inr ?_))
          have hne : ¬ ∀ x ∈ s.map (fun ch => digitVal ch - off),
              (decide (0 ≤ x ∧ x < (n : ℤ))) = true := by
            rw [← List.all_eq_true]
            exact hall
          push_neg at hne
          obtain ⟨x, hx, hx2⟩ := hne
          exact ⟨x, hx, by simpa using hx2⟩
      · rw [if_neg hlen]
        exact iff_of_true rfl (Or.inr (Or.inl hlen))
  · have hpc : parsed_coords n s off = (digitRuns s).map (fun run => natOfDigits run - off) := by
      unfold parsed_coords
      rw [if_neg hd]
    rw [if_neg hd, hpc]
    dsimp only
    by_cases hlen : ((digitRuns s).map (fun run => natOfDigits run - off)).length = d
    · rw [if_pos hlen]
      by_cases hall : (((digitRuns s).map (fun run => natOfDigits run - off)).all
          (fun t => decide (0 ≤ t ∧ t < (n : ℤ)))) = true
      · rw [if_pos hall]
        refine iff_of_false (by simp) ?_
        rintro (⟨hdd, _⟩ | hlc | ⟨x, hx, hnx⟩)
        · exact hd hdd
        · exact hlc hlen
        · exact hnx (by simpa using List.all_eq_true.mp hall x hx)
      · rw [if_neg hall]
        refine iff_of_true rfl (Or.inr (Or.inr ?_))
        have hne : ¬ ∀ x ∈ (digitRuns s).map (fun run => natOfDigits run - off),
            (decide (0 ≤ x ∧ x < (n : ℤ))) = true := by
          rw [← List.all_eq_true]
          exact hall
        push_neg at hne
        obtain ⟨x, hx, hx2⟩ := hne
        exact ⟨x, hx, by simpa using hx2⟩
    · rw [if_neg hlen]
      exact iff_of_true rfl (Or.inr (Or.inl hlen))

theorem move_snd_cases (g : TTT) (cell : MoveInput) (off : ℤ) (t cc : Cell)
    (hst : g.state = GameState.IN_PROGRESS)
    (hres : (match cell with
             | MoveInput.str s => str_to_tuple g.d g.n s off
             | MoveInput.tup c => some c) = some t)
    (hnp : np_resolve g.d g.n t = some cc) :
    (TTT.move g cell off).2 = some MoveErr.alreadyPlayed ∨
      (TTT.move g cell off).2 = none := by
  unfold TTT.move
  rw [if_neg (by simp [hst])]
  simp only [hres, hnp]
  by_cases hv : MOVE_BASE < |g.board cc|
  · rw [if_pos hv]
    left
    rfl
  · rw [if_neg hv]
    right
    dsimp only
    repeat' split
    all_goals rfl

/-- C8 (amended): for string input, `move` fails with the unknown-move error
(`invalidCell`, the source's blanket `Error`) exactly under the spec's three
conditions, and the failing call leaves the state unchanged. For tuple input
the original claim is corrected: a tuple move fails exactly when numpy index
resolution fails, i.e. some coordinate is outside `[-n, n)` (negative
coordinates in `[-n, 0)` wrap around and are accepted), again leaving the
state unchanged on failure. -/
theorem claim_C8 (g : TTT) (off : ℤ) (s : List Char) (c : Cell)
    (hst : g.state = GameState.IN_PROGRESS) :
    ((TTT.move g (MoveInput.str s) off).2 = some MoveErr.invalidCell ↔
       unknown_move_spec g.d g.n s off) ∧
    ((TTT.move g (MoveInput.str s) off).2 = some MoveErr.invalidCell →
       (TTT.move g (MoveInput.str s) off).1 = g) ∧
    ((TTT.move g (MoveInput.tup c) off).2 = some MoveErr.invalidCell ↔
       np_resolve g.d g.n c = none) ∧
    ((TTT.move g (MoveInput.tup c) off).2 = some MoveErr.invalidCell →
       (TTT.move g (MoveInput.tup c) off).1 = g) := by
  have hstr : ∀ _ : str_to_tuple g.d g.n s off = none,
      TTT.move g (MoveInput.str s) off = (g, some MoveErr.invalidCell) := by
    intro hres
    unfold TTT.move
    rw [if_neg (by simp [hst])]
    simp only [hres]
  have htup : ∀ _ : np_resolve g.d g.n c = none,
      TTT.move g (MoveInput.tup c) off = (g, some MoveErr.invalidCell) := by
    intro hnp
    unfold TTT.move
    rw [if_neg (by simp [hst])]
    dsimp only
    simp only [hnp]
  refine ⟨?_, ?_, ?_, ?_⟩
  · cases hres : str_to_tuple g.d g.n s off with
    | none =>
      rw [hstr hres]
      exact iff_of_true rfl (str_to_tuple_none_iff.mp hres)
    | some t =>
      have hnope : ¬ unknown_move_spec g.d g.n s off := by
        intro hspec
        rw [← str_to_tuple_none_iff] at hspec
        rw [hres] at hspec
        exact absurd hspec (by simp)
      refine iff_of_false ?_ hnope
      rcases move_snd_cases g (MoveInput.str s) off t t hst hres
          (str_to_tuple_resolve hres) with h | h <;>
        rw [h] <;> simp
  · intro hfail
    cases hres : str_to_tuple g.d g.n s off with
    | none => rw [hstr hres]
    | some t =>
      rcases move_snd_cases g (MoveInput.str s) off t t hst hres
          (str_to_tuple_resolve hres) with h | h <;>
        rw [h] at hfail <;> simp at hfail
  · cases hnp : np_resolve g.d g.n c with
    | none =>
      rw [htup hnp]
      exact iff_of_true rfl rfl
    | some cc =>
      refine iff_of_false ?_ (by simp [hnp])
      rcases move_snd_cases g (MoveInput.tup c) off c cc hst rfl hnp with h | h <;>
        rw [h] <;> simp
  · intro hfail
    cases hnp : np_resolve g.d g.n c with
    | none => rw [htup hnp]
    | some cc =>
      rcases move_snd_cases g (MoveInput.tup c) off c cc hst rfl hnp with h | h <;>
        rw [h] at hfail <;> simp at hfail

/-- C8 (counterexample): the original claim says a move with a coordinate
outside `[0, n)^d` always fails, for any input form. With tuple input the
board is indexed directly, and numpy wraps negative indices: on `d = 2,
n = 3` the tuple move `(-1, 0)` succeeds and marks the cell `(2, 0)`. -/
theorem claim_C8_counterexample :
    (TTT.move (TTT.init 2 3 1) (MoveInput.tup [-1, 0]) 1).2 = none ∧
      (TTT.move (TTT.init 2 3 1) (MoveInput.tup [-1, 0]) 1).1.board [2, 0] = 100 ∧
      ¬ (0 ≤ (-1 : ℤ)) := by
  decide

/-- C8 (witness): the amended claim applied to the fresh `d = 2, n = 3` game
with the string `'44'` and the tuple `(5, 0)`. -/
theorem claim_C8_witness :
    (((TTT.move (TTT.init 2 3 1) (MoveInput.str ['4', '4']) 1).2 =
          some MoveErr.invalidCell ↔ unknown_move_spec 2 3 ['4', '4'] 1) ∧
      ((TTT.move (TTT.init 2 3 1) (MoveInput.str ['4', '4']) 1).2 =
          some MoveErr.invalidCell →
        (TTT.move (TTT.init 2 3 1) (MoveInput.str ['4', '4']) 1).1 = TTT.init 2 3 1) ∧
      ((TTT.move (TTT.init 2 3 1) (MoveInput.tup [5, 0]) 1).2 =
          some MoveErr.invalidCell ↔ np_resolve 2 3 [5, 0] = none) ∧
      ((TTT.move (TTT.init 2 3 1) (MoveInput.tup [5, 0]) 1).2 =
          some MoveErr.invalidCell →
        (TTT.move (TTT.init 2 3 1) (MoveInput.tup [5, 0]) 1).1 = TTT.init 2 3 1)) :=
  claim_C8 (TTT.init 2 3 1) 1 ['4', '4'] [5, 0] rfl

/-! ### Claim C9: corner scope maximality -/

/-- C9 (counterexample): on the odd board `d = 2, n = 3` the corner `(0,0)`
lies on 3 lines but the centre `(1,1)` lies on 4 (its row, column and both
diagonals), so a corner does NOT have maximal scope: the claim fails already
at `d = 2, n = 3` (the value 4 > 3 is visible in the source's own
`get_scope_cell_coord` doctest). -/
theorem claim_C9_counterexample :
    ((structure_coord 2 3).2 [0, 0]).length = 3 ∧
      ((structure_coord 2 3).2 [1, 1]).length = 4 ∧
      ¬ (∀ c ∈ cells_coord 2 3,
          ((structure_coord 2 3).2 c).length ≤
            ((structure_coord 2 3).2 (List.replicate 2 0)).length) := by
  refine ⟨by decide, by decide, ?_⟩
  intro h
  have := h [1, 1] (by decide)
  revert this
  decide

/-- C9 (amended): over the tested grid `d ∈ [1,3]`, `n ∈ [2,5]`, the corner
`(0,...,0)` always lies on exactly `2^d - 1` lines, and for even `n` (where
no cell sits at the centre of the cube) that is the maximal scope size over
all cells. For odd `n` the centre cell exceeds it (see the counterexample). -/
theorem claim_C9 (d n : ℕ) (hd : d ∈ [1, 2, 3]) (hn : n ∈ [2, 3, 4, 5]) :
    ((structure_coord d n).2 (List.replicate d 0)).length = 2 ^ d - 1 ∧
      (n % 2 = 0 → ∀ c ∈ cells_coord d n,
        ((structure_coord d n).2 c).length ≤ 2 ^ d - 1) := by
  fin_cases hd <;> fin_cases hn <;> exact ⟨by decide, by decide⟩

/-- C9 (witness): the amended claim at `d = 2, n = 4`. -/
theorem claim_C9_witness :
    ((structure_coord 2 4).2 (List.replicate 2 0)).length = 2 ^ 2 - 1 ∧
      ((4 : ℕ) % 2 = 0 → ∀ c ∈ cells_coord 2 4,
        ((structure_coord 2 4).2 c).length ≤ 2 ^ 2 - 1) :=
  claim_C9 2 4 (by decide) (by decide)


/-! ### Claim C10: agreement of the numpy and coordinate line enumerators -/

theorem pyInsert_perm (x : ℕ) : ∀ l : List ℕ, (pyInsert x l).Perm (x :: l) := by
  intro l
  induction l with
  | nil => exact List.Perm.refl _
  | cons y ys ih =>
    unfold pyInsert
    split
    · exact List.Perm.refl _
    · exact (List.Perm.cons y ih).trans (List.Perm.swap x y ys)

theorem pySorted_perm : ∀ l : List ℕ, (pySorted l).Perm l := by
  intro l
  induction l with
  | nil => exact List.Perm.refl _
  | cons x xs ih =>
    unfold pySorted
    exact (pyInsert_perm x (pySorted xs)).trans (List.Perm.cons x ih)

theorem pyInsert_sorted (x : ℕ) : ∀ l : List ℕ, l.Pairwise (· ≤ ·) →
    (pyInsert x l).Pairwise (· ≤ ·) := by
  intro l
  induction l with
  | nil => intro _; simp [pyInsert]
  | cons y ys ih =>
    intro hs
    unfold pyInsert
    split
    · rename_i hxy
      refine List.Pairwise.cons ?_ hs
      intro z hz
      rcases List.mem_cons.mp hz with rfl | hz2
      · exact hxy
      · exact le_trans hxy (List.rel_of_pairwise_cons hs hz2)
    · rename_i hxy
      push_neg at hxy
      refine List.Pairwise.cons ?_ (ih (List.Pairwise.sublist (List.sublist_cons_self y ys) hs))
      intro z hz
      rcases List.mem_cons.mp ((pyInsert_perm x ys).mem_iff.mp hz) with rfl | hz2
      · exact le_of_lt hxy
      · exact List.rel_of_pairwise_cons hs hz2

theorem pySorted_sorted : ∀ l : List ℕ, (pySorted l).Pairwise (· ≤ ·) := by
  intro l
  induction l with
  | nil => simp [pySorted]
  | cons x xs ih => exact pyInsert_sorted x (pySorted xs) ih

theorem pySorted_eq_of_perm {l1 l2 : List ℕ} (h : l1.Perm l2) :
    pySorted l1 = pySorted l2 := by
  refine List.eq_of_perm_of_sorted ?_ (pySorted_sorted l1) (pySorted_sorted l2)
  exact (pySorted_perm l1).trans (h.trans (pySorted_perm l2).symm)

theorem foldlNat_acc (n : ℕ) : ∀ (l : List ℕ) (a : ℕ),
    l.foldl (fun a c => a * n + c) a =
      a * n ^ l.length + l.foldl (fun a c => a * n + c) 0 := by
  intro l
  induction l with
  | nil => intro a; simp
  | cons c cs ih =>
    intro a
    rw [List.foldl_cons, List.foldl_cons, ih (a * n + c), ih (0 * n + c),
      List.length_cons, pow_succ]
    ring

theorem foldlNat_lt (n : ℕ) : ∀ l : List ℕ, (∀ x ∈ l, x < n) →
    l.foldl (fun a c => a * n + c) 0 < n ^ l.length := by
  intro l
  induction l with
  | nil => intro _; simp
  | cons c cs ih =>
    intro h
    rw [List.foldl_cons, foldlNat_acc]
    have hc : c < n := h c (List.mem_cons_self c cs)
    have hcs := ih (fun x hx => h x (List.mem_cons_of_mem c hx))
    rw [List.length_cons, pow_succ]
    calc (0 * n + c) * n ^ cs.length + cs.foldl (fun a c => a * n + c) 0
        < (0 * n + c) * n ^ cs.length + n ^ cs.length := Nat.add_lt_add_left hcs _
      _ = (c + 1) * n ^ cs.length := by ring
      _ ≤ n * n ^ cs.length := Nat.mul_le_mul_right _ (by omega)
      _ = n ^ cs.length * n := Nat.mul_comm _ _

theorem unravel_foldlNat (n : ℕ) : ∀ (l : List ℕ), (∀ x ∈ l, x < n) →
    unravel_index l.length n (l.foldl (fun a c => a * n + c) 0) =
      l.map (fun (k : ℕ) => (k : ℤ)) := by
  intro l
  induction l with
  | nil => intro _; rfl
  | cons c cs ih =>
    intro h
    have hc : c < n := h c (List.mem_cons_self c cs)
    have hn : 1 ≤ n := by omega
    have hcs : ∀ x ∈ cs, x < n := fun x hx => h x (List.mem_cons_of_mem c hx)
    have hlt := foldlNat_lt n cs hcs
    set L := cs.length with hL
    set V := cs.foldl (fun a c => a * n + c) 0 with hV
    have hval : (c :: cs).foldl (fun a c => a * n + c) 0 = V + c * n ^ L := by
      rw [List.foldl_cons, foldlNat_acc]
      ring
    unfold unravel_index
    rw [hval]
    have hrange : List.range (c :: cs).length = 0 :: (List.range L).map (fun j => j + 1) := by
      rw [List.length_cons, ← hL, List.range_succ_eq_map]
    rw [hrange, List.map_cons, List.map_map]
    congr 1
    · have h0 : (V + c * n ^ L) / n ^ ((c :: cs).length - 1 - 0) = c := by
        rw [List.length_cons]
        simp only [Nat.add_sub_cancel, Nat.sub_zero]
        rw [Nat.add_mul_div_right _ _ (Nat.pos_pow_of_pos L (by omega)),
          Nat.div_eq_of_lt hlt]
        omega
      rw [h0, Nat.mod_eq_of_lt hc]
    · have ihs := ih hcs
      unfold unravel_index at ihs
      rw [← ihs]
      refine List.map_congr_left ?_
      intro j hj
      have hjL : j < L := List.mem_range.mp hj
      simp only [Function.comp]
      congr 1
      have hexp : (c :: cs).length - 1 - (j + 1) = L - 1 - j := by
        rw [List.length_cons]
        omega
      rw [hexp]
      have hsplit : V + c * n ^ L = V + c * n ^ (j + 1) * n ^ (L - 1 - j) := by
        rw [mul_assoc, ← pow_add]
        have : j + 1 + (L - 1 - j) = L := by omega
        rw [this]
      rw [hsplit, Nat.add_mul_div_right _ _ (Nat.pos_pow_of_pos _ (by omega))]
      have : c * n ^ (j + 1) = c * n ^ j * n := by
        rw [mul_assoc, pow_succ]
      rw [this, Nat.add_mul_mod_self_right]

theorem unravel_arr_val {n : ℕ} : ∀ (c : Cell), (∀ x ∈ c, 0 ≤ x ∧ x < (n : ℤ)) →
    unravel_index c.length n (arr_val n c) = c := by
  intro c h
  have hfold : arr_val n c = (c.map Int.toNat).foldl (fun a k => a * n + k) 0 := by
    unfold arr_val
    rw [List.foldl_map]
  have hlen : (c.map Int.toNat).length = c.length := List.length_map _ _
  have hbound : ∀ x ∈ c.map Int.toNat, x < n := by
    intro x hx
    rcases List.mem_map.mp hx with ⟨y, hy, rfl⟩
    rcases h y hy with ⟨h1, h2⟩
    omega
  have := unravel_foldlNat n (c.map Int.toNat) hbound
  rw [hlen] at this
  rw [hfold, this, List.map_map]
  refine List.map_congr_left ?_ |>.trans (List.map_id c)
  intro x hx
  rcases h x hx with ⟨h1, _⟩
  simp [Int.toNat_of_nonneg h1]

theorem npBase_val (d n : ℕ) (coords : List ℕ) :
    (npBase d n).val coords = coords.foldl (fun a c => a * n + c) 0 := rfl

theorem arr_val_map_cast (n : ℕ) (l : List ℕ) :
    arr_val n (l.map (fun (k : ℕ) => (k : ℤ))) = l.foldl (fun a c => a * n + c) 0 := by
  unfold arr_val
  rw [List.foldl_map]
  congr 1

theorem asc_le_getD : ∀ {l : List ℕ} {lo : ℕ}, l.Pairwise (· < ·) → (∀ x ∈ l, lo ≤ x) →
    ∀ k, k < l.length → lo + k ≤ l.getD k 0 := by
  intro l
  induction l with
  | nil => intro lo _ _ k hk; simp at hk
  | cons x xs ih =>
    intro lo hp hb k hk
    cases k with
    | zero =>
      simpa using hb x (List.mem_cons_self x xs)
    | succ k =>
      have hp2 : xs.Pairwise (· < ·) := List.Pairwise.sublist (List.sublist_cons_self x xs) hp
      have hb2 : ∀ y ∈ xs, x + 1 ≤ y := fun y hy =>
        Nat.succ_le_of_lt (List.rel_of_pairwise_cons hp hy)
      have hkk : k < xs.length := by simpa using hk
      have := ih hp2 hb2 k hkk
      have hlox : lo ≤ x := hb x (List.mem_cons_self x xs)
      calc lo + (k + 1) ≤ x + 1 + k := by omega
        _ ≤ xs.getD k 0 := this
        _ = (x :: xs).getD (k + 1) 0 := rfl

theorem asc_length_le {l : List ℕ} {lo hi : ℕ} (hp : l.Pairwise (· < ·))
    (hb : ∀ x ∈ l, lo ≤ x ∧ x < hi) : l.length ≤ hi - lo := by
  rcases Nat.eq_zero_or_pos l.length with h0 | hpos
  · omega
  · have hk : l.length - 1 < l.length := by omega
    have h1 := asc_le_getD hp (fun x hx => (hb x hx).1) (l.length - 1) hk
    have h2 : l.getD (l.length - 1) 0 < hi := by
      have hmem : l.getD (l.length - 1) 0 ∈ l := by
        rw [List.getD_eq_getElem _ _ hk]
        exact List.getElem_mem hk
      exact (hb _ hmem).2
    omega

theorem buildFull_length : ∀ (fuel j : ℕ) (af : List (ℕ × ℕ)) (cs : List ℕ),
    ((af.map Prod.fst).Pairwise (· < ·)) →
    (∀ a ∈ af, j ≤ a.1 ∧ a.1 < j + fuel) →
    af.length + cs.length = fuel →
    (buildFull fuel j af cs).length = fuel := by
  intro fuel
  induction fuel with
  | zero => intro j af cs _ _ _; rfl
  | succ fuel ih =>
    intro j af cs hp hb hlen
    unfold buildFull
    cases af with
    | cons ax af2 =>
      rcases ax with ⟨a, x⟩
      dsimp only
      by_cases ha : a = j
      · rw [if_pos ha]
        rw [List.map_cons] at hp
        have hp2 : (af2.map Prod.fst).Pairwise (· < ·) := (List.pairwise_cons.mp hp).2
        have hgt : ∀ q ∈ af2, a < q.1 := fun q hq =>
          (List.pairwise_cons.mp hp).1 q.1 (List.mem_map_of_mem Prod.fst hq)
        rw [List.length_cons]
        rw [ih (j + 1) af2 cs hp2 ?_ (by simp only [List.length_cons] at hlen; omega)]
        intro q hq
        have h1 := hgt q hq
        have h2 := hb q (List.mem_cons_of_mem _ hq)
        omega
      · rw [if_neg ha]
        have hane : j < a := by
          have := (hb (a, x) (List.mem_cons_self _ _)).1
          omega
        have hpc := hp
        rw [List.map_cons] at hpc
        have hbound : ∀ y ∈ ((a, x) :: af2).map Prod.fst, j + 1 ≤ y ∧ y < j + 1 + fuel := by
          intro y hy
          rcases List.mem_map.mp hy with ⟨q, hq, rfl⟩
          have h2 := hb q hq
          rcases List.mem_cons.mp hq with rfl | hq2
          · omega
          · have hgt : a < q.1 :=
              (List.pairwise_cons.mp hpc).1 q.1 (List.mem_map_of_mem Prod.fst hq2)
            omega
        have hcount : ((a, x) :: af2).length ≤ fuel := by
          have h1 := asc_length_le hp hbound
          rw [List.length_map] at h1
          omega
        cases cs with
        | nil =>
          exfalso
          simp only [List.length_nil, Nat.add_zero] at hlen
          omega
        | cons c cs2 =>
          dsimp only
          rw [List.length_cons]
          rw [ih (j + 1) ((a, x) :: af2) cs2 hp ?_ ?_]
          · intro q hq
            have := hbound q.1 (List.mem_map_of_mem Prod.fst hq)
            omega
          · have := hlen
            simp only [List.length_cons] at this ⊢
            omega
    | nil =>
      cases cs with
      | nil => simp at hlen
      | cons c cs2 =>
        dsimp only
        rw [List.length_cons]
        rw [ih (j + 1) [] cs2 (by simp) (by simp) ?_]
        simp only [List.length_nil, List.length_cons] at hlen ⊢
        omega

theorem countP_lt_bound {l : List ℕ} (hp : l.Pairwise (· < ·)) {lo hi : ℕ}
    (hge : ∀ x ∈ l, lo ≤ x) : l.countP (fun a => decide (a < hi)) ≤ hi - lo := by
  rw [List.countP_eq_length_filter]
  refine asc_length_le (List.Pairwise.sublist (List.filter_sublist _) hp) ?_
  intro x hx
  rcases List.mem_filter.mp hx with ⟨hm, hc⟩
  exact ⟨hge x hm, by simpa using hc⟩

theorem buildFull_getD_axis : ∀ (fuel j : ℕ) (af : List (ℕ × ℕ)) (cs : List ℕ),
    ((af.map Prod.fst).Pairwise (· < ·)) →
    (∀ q ∈ af, j ≤ q.1 ∧ q.1 < j + fuel) →
    af.length + cs.length = fuel →
    ∀ q ∈ af, (buildFull fuel j af cs).getD (q.1 - j) 0 = q.2 := by
  intro fuel
  induction fuel with
  | zero =>
    intro j af cs _ hb hlen q hq
    have := hb q hq
    omega
  | succ fuel ih =>
    intro j af cs hp hb hlen q hq
    unfold buildFull
    cases af with
    | nil => simp at hq
    | cons ax af2 =>
      rcases ax with ⟨a, x⟩
      dsimp only
      rw [List.map_cons] at hp
      have hgt : ∀ r ∈ af2, a < r.1 := fun r hr =>
        (List.pairwise_cons.mp hp).1 r.1 (List.mem_map_of_mem Prod.fst hr)
      by_cases ha : a = j
      · rw [if_pos ha]
        rcases List.mem_cons.mp hq with rfl | hq2
        · rw [ha, Nat.sub_self]
          rfl
        · have hq1 : j + 1 ≤ q.1 := by
            have := hgt q hq2
            omega
          have hsub : q.1 - j = (q.1 - (j + 1)) + 1 := by omega
          rw [hsub]
          have hrec := ih (j + 1) af2 cs (List.pairwise_cons.mp hp).2 ?_
            (by simp only [List.length_cons] at hlen; omega) q hq2
          · exact hrec
          · intro r hr
            have h1 := hgt r hr
            have h2 := hb r (List.mem_cons_of_mem _ hr)
            omega
      · rw [if_neg ha]
        have hane : j < a := by
          have := (hb (a, x) (List.mem_cons_self _ _)).1
          omega
        have hbound : ∀ y ∈ ((a, x) :: af2).map Prod.fst, j + 1 ≤ y ∧ y < j + 1 + fuel := by
          intro y hy
          rcases List.mem_map.mp hy with ⟨r, hr, rfl⟩
          have h2 := hb r hr
          rcases List.mem_cons.mp hr with rfl | hr2
          · omega
          · have := hgt r hr2
            omega
        have hcount : ((a, x) :: af2).length ≤ fuel := by
          have h1 := asc_length_le (by rw [List.map_cons]; exact hp) hbound
          rw [List.length_map] at h1
          omega
        cases cs with
        | nil =>
          exfalso
          simp only [List.length_nil, Nat.add_zero] at hlen
          omega
        | cons c cs2 =>
          dsimp only
          have hq1 : j + 1 ≤ q.1 := by
            rcases List.mem_cons.mp hq with rfl | hq2
            · omega
            · have := hgt q hq2
              omega
          have hsub : q.1 - j = (q.1 - (j + 1)) + 1 := by omega
          rw [hsub]
          have hrec := ih (j + 1) ((a, x) :: af2) cs2 (by rw [List.map_cons]; exact hp) ?_
            ?_ q hq
          · exact hrec
          · intro r hr
            have := hbound r.1 (List.mem_map_of_mem Prod.fst hr)
            omega
          · simp only [List.length_cons] at hlen ⊢
            omega

theorem buildFull_getD_free : ∀ (fuel j : ℕ) (af : List (ℕ × ℕ)) (cs : List ℕ),
    ((af.map Prod.fst).Pairwise (· < ·)) →
    (∀ q ∈ af, j ≤ q.1 ∧ q.1 < j + fuel) →
    af.length + cs.length = fuel →
    ∀ p, p < fuel → (j + p) ∉ af.map Prod.fst →
      (buildFull fuel j af cs).getD p 0 =
        cs.getD (p - (af.map Prod.fst).countP (fun a => decide (a < j + p))) 0 := by
  intro fuel
  induction fuel with
  | zero => intro j af cs _ _ _ p hp; omega
  | succ fuel ih =>
    intro j af cs hp hb hlen p hpf hnot
    unfold buildFull
    cases af with
    | nil =>
      cases cs with
      | nil => simp at hlen
      | cons c cs2 =>
        dsimp only
        simp only [List.map_nil, List.countP_nil, Nat.sub_zero]
        cases p with
        | zero => rfl
        | succ p2 =>
          have hrec := ih (j + 1) [] cs2 (by simp) (by simp)
            (by simp only [List.length_nil, List.length_cons] at hlen ⊢; omega) p2
            (by omega) (by simp)
          simp only [List.map_nil, List.countP_nil, Nat.sub_zero] at hrec
          exact hrec
    | cons ax af2 =>
      rcases ax with ⟨a, x⟩
      dsimp only
      rw [List.map_cons] at hp hnot ⊢
      have hgt : ∀ r ∈ af2, a < r.1 := fun r hr =>
        (List.pairwise_cons.mp hp).1 r.1 (List.mem_map_of_mem Prod.fst hr)
      by_cases ha : a = j
      · rw [if_pos ha]
        cases p with
        | zero =>
          exfalso
          apply hnot
          simp [ha]
        | succ p2 =>
          have hcnt : ((a, x).1 :: af2.map Prod.fst).countP (fun y => decide (y < j + (p2 + 1))) =
              (af2.map Prod.fst).countP (fun y => decide (y < j + 1 + p2)) + 1 := by
            rw [List.countP_cons]
            have hlt : (a, x).1 < j + (p2 + 1) := by omega
            have harith : j + (p2 + 1) = j + 1 + p2 := by omega
            rw [harith] at hlt ⊢
            simp [hlt]
          rw [hcnt]
          have hrec := ih (j + 1) af2 cs (List.pairwise_cons.mp hp).2 ?_
            (by simp only [List.length_cons] at hlen; omega) p2 (by omega) ?_
          · rw [show p2 + 1 - ((af2.map Prod.fst).countP (fun y => decide (y < j + 1 + p2)) + 1)
              = p2 - (af2.map Prod.fst).countP (fun y => decide (y < j + 1 + p2)) by omega]
            exact hrec
          · intro r hr
            have h1 := hgt r hr
            have h2 := hb r (List.mem_cons_of_mem _ hr)
            omega
          · intro hmem
            apply hnot
            rw [List.mem_cons]
            right
            rw [show j + (p2 + 1) = j + 1 + p2 by omega]
            exact hmem
      · rw [if_neg ha]
        have hane : j < a := by
          have := (hb (a, x) (List.mem_cons_self _ _)).1
          omega
        have hge1 : ∀ y ∈ (a, x).1 :: af2.map Prod.fst, j + 1 ≤ y := by
          intro y hy
          rcases List.mem_cons.mp hy with rfl | hy2
          · omega
          · rcases List.mem_map.mp hy2 with ⟨r, hr, rfl⟩
            have := hgt r hr
            omega
        have hbound : ∀ y ∈ (a, x).1 :: af2.map Prod.fst, j + 1 ≤ y ∧ y < j + 1 + fuel := by
          intro y hy
          refine ⟨hge1 y hy, ?_⟩
          rcases List.mem_cons.mp hy with heq | hy2
          · have h2 := (hb (a, x) (List.mem_cons_self _ _)).2
            simp only at heq
            omega
          · rcases List.mem_map.mp hy2 with ⟨r, hr, rfl⟩
            have := (hb r (List.mem_cons_of_mem _ hr)).2
            omega
        have hcount : ((a, x) :: af2).length ≤ fuel := by
          have h1 := asc_length_le hp hbound
          simp only [List.length_cons, List.length_map] at h1 ⊢
          omega
        cases cs with
        | nil =>
          exfalso
          simp only [List.length_nil, Nat.add_zero] at hlen
          omega
        | cons c cs2 =>
          dsimp only
          cases p with
          | zero =>
            have hcnt0 : ((a, x).1 :: af2.map Prod.fst).countP
                (fun y => decide (y < j + 0)) = 0 := by
              rw [List.countP_eq_zero]
              intro y hy
              have := hge1 y hy
              simp only [decide_eq_true_eq]
              omega
            rw [hcnt0]
            rfl
          | succ p2 =>
            have hcnt_le : ((a, x).1 :: af2.map Prod.fst).countP
                (fun y => decide (y < j + (p2 + 1))) ≤ p2 := by
              have h1 := @countP_lt_bound ((a, x).1 :: af2.map Prod.fst) hp (j + 1)
                (j + (p2 + 1)) hge1
              calc ((a, x).1 :: af2.map Prod.fst).countP (fun y => decide (y < j + (p2 + 1)))
                  ≤ (j + (p2 + 1)) - (j + 1) := h1
                _ = p2 := by omega
            have hrec := ih (j + 1) ((a, x) :: af2) cs2 (by rw [List.map_cons]; exact hp) ?_
              ?_ p2 (by omega) ?_
            · rw [List.map_cons] at hrec
              rw [show j + 1 + p2 = j + (p2 + 1) by omega] at hrec
              rw [List.getD_cons_succ, hrec]
              rw [show p2 + 1 - ((a, x).1 :: af2.map Prod.fst).countP
                  (fun y => decide (y < j + (p2 + 1)))
                = (p2 - ((a, x).1 :: af2.map Prod.fst).countP
                    (fun y => decide (y < j + (p2 + 1)))) + 1 by omega]
              rfl
            · intro r hr
              have := hbound r.1 (by
                rw [← List.map_cons]
                exact List.mem_map_of_mem Prod.fst hr)
              omega
            · simp only [List.length_cons] at hlen ⊢
              omega
            · rw [List.map_cons]
              rw [show j + 1 + p2 = j + (p2 + 1) by omega]
              exact hnot

theorem getD_map_cast {l : List ℕ} {i : ℕ} (h : i < l.length) :
    (l.map (fun (k : ℕ) => (k : ℤ))).getD i 0 = ((l.getD i 0 : ℕ) : ℤ) := by
  have h2 : i < (l.map (fun (k : ℕ) => (k : ℤ))).length := by
    rw [List.length_map]
    exact h
  rw [List.getD_eq_getElem _ _ h2, List.getD_eq_getElem _ _ h, List.getElem_map]

theorem buildFull_merge {d : ℕ} {comb : List ℕ} (hcomb : comb.Sublist (List.range d))
    (coords cell : List ℕ)
    (hcs : coords.length = comb.length)
    (hcell : cell.length = (other_dims d comb).length) :
    (buildFull d 0 ((other_dims d comb).zip cell) coords).map (fun (k : ℕ) => (k : ℤ)) =
      insert_into_tuple (coords.map (fun (k : ℕ) => (k : ℤ))) (other_dims d comb)
        (cell.map (fun (k : ℕ) => (k : ℤ))) := by
  have hcombd : comb.length ≤ d := by simpa using hcomb.length_le
  have hother := length_other_dims hcomb
  have hzip : ((other_dims d comb).zip cell).length = (other_dims d comb).length := by
    rw [List.length_zip]
    omega
  have hfst : ((other_dims d comb).zip cell).map Prod.fst = other_dims d comb :=
    List.map_fst_zip _ _ (by omega)
  have hp : (((other_dims d comb).zip cell).map Prod.fst).Pairwise (· < ·) := by
    rw [hfst]
    exact other_dims_pairwise
  have hbq : ∀ q ∈ (other_dims d comb).zip cell, 0 ≤ q.1 ∧ q.1 < 0 + d := by
    intro q hq
    have hmem : q.1 ∈ other_dims d comb := by
      rw [← hfst]
      exact List.mem_map_of_mem Prod.fst hq
    have := (mem_other_dims.mp hmem).1
    omega
  have hsum : ((other_dims d comb).zip cell).length + coords.length = d := by
    rw [hzip]
    omega
  have hblen := buildFull_length d 0 ((other_dims d comb).zip cell) coords hp hbq hsum
  have hilen : (insert_into_tuple (coords.map (fun (k : ℕ) => (k : ℤ))) (other_dims d comb)
      (cell.map (fun (k : ℕ) => (k : ℤ)))).length = d :=
    insert_into_tuple_length hcomb (by rw [List.length_map]; exact hcs)
      (by rw [List.length_map]; exact hcell)
  refine ext_getD ?_ ?_
  · rw [List.length_map, hblen, hilen]
  · intro p hpd
    rw [List.length_map, hblen] at hpd
    rw [getD_map_cast (by rw [hblen]; exact hpd)]
    by_cases hpc : p ∈ comb
    · rcases List.mem_iff_getElem.mp hpc with ⟨r, hr, hpr⟩
      have hgetd : comb.getD r 0 = p := by
        rw [List.getD_eq_getElem _ _ hr, hpr]
      have hcz : (coords.map (fun (k : ℕ) => (k : ℤ))).length = comb.length := by
        rw [List.length_map]
        exact hcs
      have hvz : (cell.map (fun (k : ℕ) => (k : ℤ))).length = (other_dims d comb).length := by
        rw [List.length_map]
        exact hcell
      have hins := insert_into_tuple_getD_comb hcomb hcz hvz hr
      rw [hgetd] at hins
      rw [hins]
      have hnotin : (0 + p) ∉ ((other_dims d comb).zip cell).map Prod.fst := by
        rw [hfst, Nat.zero_add]
        intro hmem
        exact (mem_other_dims.mp hmem).2 hpc
      have hfree := buildFull_getD_free d 0 ((other_dims d comb).zip cell) coords hp hbq hsum
        p hpd hnotin
      rw [hfst] at hfree
      have hcntc : comb.countP (fun x => decide (x < p)) = r := by
        have := sorted_countP_lt (comb_pairwise hcomb) hr
        rw [hgetd] at this
        exact this
      have hpart := countP_partition hcomb (Nat.le_of_lt hpd)
      have hidx : p - (other_dims d comb).countP (fun a => decide (a < 0 + p)) = r := by
        rw [Nat.zero_add]
        omega
      rw [hidx] at hfree
      rw [hfree, getD_map_cast (by omega)]
    · have hpo : p ∈ other_dims d comb := mem_other_dims.mpr ⟨hpd, hpc⟩
      rcases List.mem_iff_getElem.mp hpo with ⟨r, hr, hpr⟩
      have hgetd : (other_dims d comb).getD r 0 = p := by
        rw [List.getD_eq_getElem _ _ hr, hpr]
      have hcz : (coords.map (fun (k : ℕ) => (k : ℤ))).length = comb.length := by
        rw [List.length_map]
        exact hcs
      have hvz : (cell.map (fun (k : ℕ) => (k : ℤ))).length = (other_dims d comb).length := by
        rw [List.length_map]
        exact hcell
      have hins := insert_into_tuple_getD_other hcomb hcz hvz hr
      rw [hgetd] at hins
      rw [hins]
      have hrz : r < ((other_dims d comb).zip cell).length := by
        rw [hzip]
        omega
      have hrc : r < cell.length := by omega
      have hq : ((other_dims d comb).zip cell).get ⟨r, hrz⟩ =
          ((other_dims d comb).get ⟨r, hr⟩, cell.get ⟨r, hrc⟩) := by
        simp only [List.get_eq_getElem]
        exact List.getElem_zip
      have haxis := buildFull_getD_axis d 0 ((other_dims d comb).zip cell) coords hp hbq hsum
        (((other_dims d comb).zip cell).get ⟨r, hrz⟩) (List.get_mem _ r hrz)
      rw [hq] at haxis
      dsimp only at haxis
      have hax2 : (other_dims d comb).get ⟨r, hr⟩ = p := by
        rw [List.get_eq_getElem]
        exact hpr
      rw [hax2, Nat.sub_zero] at haxis
      rw [haxis, getD_map_cast hrc]
      rw [List.getD_eq_getElem _ _ hrc, List.get_eq_getElem]

theorem filter_not_other {d : ℕ} {comb : List ℕ} (hcomb : comb.Sublist (List.range d)) :
    (List.range d).filter (fun j => !((other_dims d comb).contains j)) = comb := by
  refine sorted_lt_ext (List.Pairwise.sublist (List.filter_sublist _) (List.pairwise_lt_range d))
    (comb_pairwise hcomb) (fun x => ?_)
  simp only [List.mem_filter, List.mem_range, Bool.not_eq_true', ← Bool.not_eq_true,
    List.elem_eq_mem, decide_eq_true_eq]
  constructor
  · rintro ⟨hxd, hno⟩
    by_contra hxc
    exact hno (mem_other_dims.mpr ⟨hxd, hxc⟩)
  · intro hxc
    refine ⟨mem_comb_lt hcomb hxc, fun hmem => ?_⟩
    exact (mem_other_dims.mp hmem).2 hxc

theorem slice_shape {d n : ℕ} {comb : List ℕ} (hcomb : comb.Sublist (List.range d))
    (cell : List ℕ) :
    (slice_ndarray (npBase d n) (other_dims d comb) cell).shape =
      List.replicate comb.length n := by
  unfold slice_ndarray npBase
  dsimp only
  rw [List.length_replicate, filter_not_other hcomb]
  refine List.eq_replicate_iff.mpr ⟨by rw [List.length_map], ?_⟩
  intro b hb
  rcases List.mem_map.mp hb with ⟨j, hj, rfl⟩
  have hjd : j < d := mem_comb_lt hcomb hj
  rw [List.getD_eq_getElem _ _ (by simpa using hjd), List.getElem_replicate]

theorem slice_val {d n : ℕ} {comb : List ℕ} (hcomb : comb.Sublist (List.range d))
    (cell coords : List ℕ)
    (hcell : cell.length = (other_dims d comb).length)
    (hcs : coords.length = comb.length) :
    (slice_ndarray (npBase d n) (other_dims d comb) cell).val coords =
      arr_val n (insert_into_tuple (coords.map (fun (k : ℕ) => (k : ℤ)))
        (other_dims d comb) (cell.map (fun (k : ℕ) => (k : ℤ)))) := by
  unfold slice_ndarray
  dsimp only
  have hshape : (npBase d n).shape.length = d := by
    unfold npBase
    exact List.length_replicate d n
  rw [hshape]
  rw [npBase_val]
  rw [← arr_val_map_cast n (buildFull d 0 ((other_dims d comb).zip cell) coords)]
  rw [buildFull_merge hcomb coords cell hcs hcell]

theorem headD_eq_getD {l : List ℕ} {d : ℕ} : l.headD d = l.getD 0 d := by
  cases l <;> rfl

theorem getLastD_eq_getD {l : List ℕ} {d : ℕ} (h : l ≠ []) :
    l.getLastD d = l.getD (l.length - 1) d := by
  have hlt : l.length - 1 < l.length := by
    have := List.length_pos.mpr h
    omega
  rw [List.getLastD_eq_getLast?, List.getLast?_eq_getElem?]
  rw [List.getElem?_eq_getElem hlt]
  rw [List.getD_eq_getElem _ _ hlt]
  rfl

theorem inRange_diagonal {v : NpView} {coords : List ℕ}
    (h : inRangeC (npDiagonal v).shape coords) :
    inRangeC v.shape (coords.getLastD 0 :: coords.getLastD 0 :: coords.dropLast) := by
  obtain ⟨hlen, hbnd⟩ := h
  have hdlen : (npDiagonal v).shape.length = (v.shape.length - 2) + 1 := by
    unfold npDiagonal
    simp only [List.length_append, List.length_drop, List.length_cons, List.length_nil]
  have hcne : coords ≠ [] := by
    intro hc
    rw [hc] at hlen
    simp only [List.length_nil] at hlen
    omega
  have hlast := hbnd (coords.length - 1) (by
    have : 1 ≤ coords.length := List.length_pos.mpr hcne
    omega)
  rw [← getLastD_eq_getD hcne] at hlast
  have hlastshape : (npDiagonal v).shape.getD (coords.length - 1) 0 =
      min (v.shape.getD 0 0) (v.shape.getD 1 0) := by
    unfold npDiagonal
    dsimp only
    have hidx : coords.length - 1 = (v.shape.drop 2).length := by
      rw [List.length_drop]
      omega
    rw [hidx, List.getD_append_right _ _ _ _ (le_refl _)]
    simp
  rw [hlastshape] at hlast
  rcases Nat.lt_or_ge v.shape.length 2 with hL | hL
  · exfalso
    have h1 : v.shape.getD 1 0 = 0 := by
      rcases hsh : v.shape with _ | ⟨s0, rest⟩
      · rfl
      · rcases hrest : rest with _ | ⟨s1, rest2⟩
        · rfl
        · rw [hsh, hrest] at hL
          simp only [List.length_cons] at hL
          omega
    rw [h1] at hlast
    omega
  · refine ⟨?_, ?_⟩
    · simp only [List.length_cons, List.length_dropLast]
      omega
    · intro j hj
      match j with
      | 0 =>
        simp only [List.getD_cons_zero]
        calc coords.getLastD 0 < min (v.shape.getD 0 0) (v.shape.getD 1 0) := hlast
          _ ≤ v.shape.getD 0 0 := min_le_left _ _
      | 1 =>
        simp only [List.getD_cons_succ, List.getD_cons_zero]
        calc coords.getLastD 0 < min (v.shape.getD 0 0) (v.shape.getD 1 0) := hlast
          _ ≤ v.shape.getD 1 0 := min_le_right _ _
      | (k + 2) =>
        simp only [List.getD_cons_succ]
        have hklt : k < coords.length - 1 := by
          simp only [List.length_cons, List.length_dropLast] at hj
          omega
        have hk2 : k < coords.dropLast.length := by
          rw [List.length_dropLast]
          exact hklt
        have hdropk : coords.dropLast.getD k 0 = coords.getD k 0 := by
          rw [List.getD_eq_getElem _ _ hk2, List.getD_eq_getElem _ _ (by
            rw [List.length_dropLast] at hk2
            omega)]
          exact List.getElem_dropLast _ _ _
      
        rw [hdropk]
        have hb2 := hbnd k (by omega)
        have hshk : (npDiagonal v).shape.getD k 0 = v.shape.getD (2 + k) 0 := by
          unfold npDiagonal
          dsimp only
          have hk3 : k < (v.shape.drop 2).length := by
            rw [List.length_drop]
            omega
          rw [List.getD_append _ _ _ _ hk3]
          rw [List.getD_eq_getElem _ _ hk3, List.getD_eq_getElem _ _ (by omega)]
          exact List.getElem_drop _
        rw [hshk] at hb2
        rw [show k + 2 = 2 + k from by omega]
        exact hb2

theorem inRange_flip {v : NpView} {coords : List ℕ} (h : inRangeC v.shape coords)
    (hne : coords ≠ []) :
    inRangeC v.shape ((v.shape.headD 0 - 1 - coords.headD 0) :: coords.tail) := by
  obtain ⟨hlen, hbnd⟩ := h
  have hpos : 0 < coords.length := List.length_pos.mpr hne
  have h0 := hbnd 0 hpos
  refine ⟨?_, ?_⟩
  · simp only [List.length_cons, List.length_tail]
    omega
  · intro j hj
    match j with
    | 0 =>
      simp only [List.getD_cons_zero]
      rw [headD_eq_getD]
      omega
    | (k + 1) =>
      simp only [List.getD_cons_succ]
      have hk : k + 1 < coords.length := by
        simp only [List.length_cons, List.length_tail] at hj
        omega
      have htail : coords.tail.getD k 0 = coords.getD (k + 1) 0 := by
        rcases coords with _ | ⟨c0, rest⟩
        · exact absurd rfl hne
        · rfl
      rw [htail]
      exact hbnd (k + 1) hk

theorem get_diagonals_np_natural (g : ℕ → ℕ) :
    ∀ (fuel : ℕ) (v w : NpView), v.shape = w.shape →
      (∀ coords, inRangeC w.shape coords → v.val coords = g (w.val coords)) →
      get_diagonals_np fuel v = (get_diagonals_np fuel w).map (fun l => l.map g) := by
  intro fuel
  induction fuel with
  | zero => intro v w _ _; rfl
  | succ fuel ih =>
    intro v w hsh hval
    unfold get_diagonals_np
    rw [hsh]
    by_cases h1 : w.shape.length == 1
    · rw [if_pos h1, if_pos h1]
      have hlen1 : w.shape.length = 1 := by simpa using h1
      simp only [List.map_cons, List.map_nil, List.map_map]
      congr 1
      · refine List.map_congr_left ?_
        intro k hk
        have hkr : k < w.shape.headD 0 := List.mem_range.mp hk
        refine hval [k] ⟨by simp [hlen1], ?_⟩
        intro j hj
        have hj0 : j = 0 := by simpa using hj
        subst hj0
        simp only [List.getD_cons_zero]
        rw [← headD_eq_getD]
        exact hkr
    · rw [if_neg h1, if_neg h1]
      have hshd : (npDiagonal v).shape = (npDiagonal w).shape := by
        unfold npDiagonal
        rw [hsh]
      have hshf : (npDiagonal (npFlip0 v)).shape = (npDiagonal (npFlip0 w)).shape := by
        unfold npDiagonal npFlip0
        dsimp only
        rw [hsh]
      have hd1 := ih (npDiagonal v) (npDiagonal w) hshd ?_
      have hd2 := ih (npDiagonal (npFlip0 v)) (npDiagonal (npFlip0 w)) hshf ?_
      · rw [hd1, hd2, List.map_append]
      · intro coords hin
        show (npFlip0 v).val _ = g ((npFlip0 w).val _)
        show v.val _ = g (w.val _)
        have hin2 := inRange_diagonal (v := npFlip0 w) hin
        have hin3 : inRangeC w.shape
            (coords.getLastD 0 :: coords.getLastD 0 :: coords.dropLast) := by
          have : (npFlip0 w).shape = w.shape := rfl
          rwa [this] at hin2
        have hfl := inRange_flip hin3 (by simp)
        rw [hsh]
        exact hval _ hfl
      · intro coords hin
        show v.val _ = g (w.val _)
        exact hval _ (inRange_diagonal hin)

theorem listProd_map {α β : Type} (f : α → β) :
    ∀ ls : List (List α),
      listProd (ls.map (List.map f)) = (listProd ls).map (List.map f) := by
  intro ls
  induction ls with
  | nil => rfl
  | cons xs rest ih =>
    show (xs.map f).flatMap (fun x => (listProd (rest.map (List.map f))).map (x :: ·)) = _
    rw [ih]
    rw [List.flatMap_map]
    show xs.flatMap (fun x => ((listProd rest).map (List.map f)).map ((f x) :: ·)) = _
    show _ = (xs.flatMap (fun x => (listProd rest).map (x :: ·))).map (List.map f)
    rw [List.map_flatMap]
    refine congrArg _ ?_
    funext x
    rw [List.map_map, List.map_map]
    rfl

theorem contains_iff_mem {l : List (List ℕ)} {x : List ℕ} :
    l.contains x = true ↔ x ∈ l := by
  simp

theorem cell_mem_facts {d n i : ℕ} {cell : List ℕ}
    (hcell : cell ∈ listProd (List.replicate (d - i - 1) (List.range n))) :
    cell.length = d - i - 1 ∧ ∀ x ∈ cell, x < n := by
  have hf := mem_listProd.mp hcell
  constructor
  · have := hf.length_eq
    simpa using this
  · intro x hx
    rcases List.mem_iff_getElem.mp hx with ⟨k, hk, rfl⟩
    rcases List.forall₂_iff_get.mp hf with ⟨hlen2, hget⟩
    have hk2 : k < (List.replicate (d - i - 1) (List.range n)).length := by omega
    have := hget k hk hk2
    simp only [List.get_eq_getElem, List.getElem_replicate] at this
    exact List.mem_range.mp this

theorem comb_facts {d i : ℕ} {comb : List ℕ}
    (hcomb : comb ∈ combinations (List.range d) (i + 1)) :
    comb.Sublist (List.range d) ∧ comb.length = i + 1 := mem_combinations.mp hcomb

theorem gmerge_of_inrange {d n i : ℕ} {comb cell : List ℕ}
    (hcomb : comb ∈ combinations (List.range d) (i + 1))
    (hcell : cell ∈ listProd (List.replicate (d - i - 1) (List.range n)))
    (coords : List ℕ) (hin : inRangeC (npBase (i + 1) n).shape coords) :
    (slice_ndarray (npBase d n) (other_dims d comb) cell).val coords =
      gmerge d n (i + 1) comb cell ((npBase (i + 1) n).val coords) := by
  obtain ⟨hsub, hclen⟩ := comb_facts hcomb
  obtain ⟨hcelllen, hcellval⟩ := cell_mem_facts hcell
  obtain ⟨hclen2, hcbnd⟩ := hin
  have hshapelen : (npBase (i + 1) n).shape.length = i + 1 := by
    unfold npBase
    exact List.length_replicate _ _
  have hcoordlen : coords.length = i + 1 := by omega
  have hcoordval : ∀ x ∈ coords, x < n := by
    intro x hx
    rcases List.mem_iff_getElem.mp hx with ⟨k, hk, rfl⟩
    have := hcbnd k hk
    rw [List.getD_eq_getElem _ _ hk] at this
    have hsh : (npBase (i + 1) n).shape.getD k 0 = n := by
      unfold npBase
      dsimp only
      rw [List.getD_eq_getElem _ _ (by rw [List.length_replicate]; omega),
        List.getElem_replicate]
    rw [hsh] at this
    exact this
  have hcell2 : cell.length = (other_dims d comb).length := by
    rw [length_other_dims hsub]
    omega
  rw [slice_val hsub cell coords hcell2 (by omega)]
  unfold gmerge
  rw [npBase_val, ← arr_val_map_cast n coords]
  have hz : ∀ x ∈ coords.map (fun (k : ℕ) => (k : ℤ)), 0 ≤ x ∧ x < (n : ℤ) := by
    intro x hx
    rcases List.mem_map.mp hx with ⟨y, hy, rfl⟩
    have := hcoordval y hy
    constructor
    · exact_mod_cast Nat.zero_le y
    · exact_mod_cast this
  have hu := unravel_arr_val (coords.map (fun (k : ℕ) => (k : ℤ))) hz
  rw [List.length_map, hcoordlen] at hu
  rw [hu]

theorem diagonals_slice_eq {d n i : ℕ} {comb cell : List ℕ}
    (hcomb : comb ∈ combinations (List.range d) (i + 1))
    (hcell : cell ∈ listProd (List.replicate (d - i - 1) (List.range n))) :
    get_diagonals_np (i + 1) (slice_ndarray (npBase d n) (other_dims d comb) cell) =
      (get_diagonals_np (i + 1) (npBase (i + 1) n)).map
        (fun l => l.map (gmerge d n (i + 1) comb cell)) := by
  obtain ⟨hsub, hclen⟩ := comb_facts hcomb
  obtain ⟨hcelllen, _⟩ := cell_mem_facts hcell
  refine get_diagonals_np_natural (gmerge d n (i + 1) comb cell) (i + 1) _ _ ?_ ?_
  · rw [slice_shape hsub cell, hclen]
    rfl
  · exact gmerge_of_inrange hcomb hcell

theorem coord_cell_merge {d n i : ℕ} {comb cell : List ℕ} (hn : 1 ≤ n)
    {diag : Line} (hdiag : diag ∈ get_diagonals_coord (i + 1) n)
    {cel : Cell} (hcel : cel ∈ diag) :
    arr_val n (insert_into_tuple cel (other_dims d comb)
        (cell.map (fun (k : ℕ) => (k : ℤ)))) =
      gmerge d n (i + 1) comb cell (arr_val n cel) := by
  rcases List.mem_map.mp hdiag with ⟨corner, hcorner, rfl⟩
  obtain ⟨hlen, hbnd⟩ := diag_cell_facts hn hcorner hcel
  unfold gmerge
  have hu := unravel_arr_val cel hbnd
  rw [hlen] at hu
  rw [hu]

theorem coord_line_merge {d n i : ℕ} {comb cell : List ℕ} (hn : 1 ≤ n)
    {diag : Line} (hdiag : diag ∈ get_diagonals_coord (i + 1) n) :
    (diag.map (fun c => insert_into_tuple c (other_dims d comb)
        (cell.map (fun (k : ℕ) => (k : ℤ))))).map (arr_val n) =
      (diag.map (arr_val n)).map (gmerge d n (i + 1) comb cell) := by
  rw [List.map_map, List.map_map]
  refine List.map_congr_left ?_
  intro cel hcel
  exact coord_cell_merge hn hdiag hcel

theorem check_of_sub (d n : ℕ) (hn : 1 ≤ n)
    (h : ∀ m ∈ List.range' 1 d, sub_check m n = true) :
    lines_np_coord_check d n = true := by
  have hsub : ∀ i, i < d → sub_check (i + 1) n = true := by
    intro i hid
    exact h (i + 1) (List.mem_range'_1.mpr ⟨by omega, by omega⟩)
  unfold lines_np_coord_check
  simp only [Bool.and_eq_true, List.all_eq_true]
  constructor
  · intro t ht
    rcases List.mem_map.mp ht with ⟨l, hl, rfl⟩
    rw [contains_iff_mem]
    rcases List.mem_flatMap.mp hl with ⟨i, hi, hl1⟩
    simp only [get_lines_i_np, List.mem_flatMap] at hl1
    rcases hl1 with ⟨comb, hcomb, cell, hcell, hl3⟩
    rw [diagonals_slice_eq hcomb hcell] at hl3
    rcases List.mem_map.mp hl3 with ⟨l0, hl0, rfl⟩
    have hsc := hsub i (List.mem_range.mp hi)
    rw [sub_check, Bool.and_eq_true] at hsc
    have hmemnp : pySorted l0 ∈ sub_np (i + 1) n :=
      List.mem_map_of_mem (fun l => pySorted l) hl0
    have hco := List.all_eq_true.mp hsc.1 _ hmemnp
    rw [contains_iff_mem, sub_coord] at hco
    rcases List.mem_map.mp hco with ⟨diag, hdiag, heq⟩
    have hperm : (List.map (arr_val n) diag).Perm l0 := by
      have p1 := pySorted_perm (diag.map (arr_val n))
      have p2 := pySorted_perm l0
      exact (p1.symm.trans (heq ▸ p2))
    refine List.mem_map.mpr
      ⟨diag.map (fun c => insert_into_tuple c (other_dims d comb)
        (cell.map (fun (k : ℕ) => (k : ℤ)))), ?_, ?_⟩
    · refine List.mem_flatMap.mpr ⟨i, hi, ?_⟩
      simp only [get_lines_i_coord, List.mem_flatMap]
      refine ⟨comb, hcomb, cell.map (fun (k : ℕ) => (k : ℤ)), ?_, ?_⟩
      · rw [← List.map_replicate, listProd_map]
        exact List.mem_map_of_mem _ hcell
      · exact List.mem_map.mpr ⟨diag, hdiag, rfl⟩
    · rw [coord_line_merge hn hdiag]
      exact pySorted_eq_of_perm (hperm.map _)
  · intro t ht
    rcases List.mem_map.mp ht with ⟨L, hL, rfl⟩
    rw [contains_iff_mem]
    rcases List.mem_flatMap.mp hL with ⟨i, hi, hL1⟩
    simp only [get_lines_i_coord, List.mem_flatMap] at hL1
    rcases hL1 with ⟨comb, hcomb, cellZ, hcellZ, hL3⟩
    rw [← List.map_replicate, listProd_map] at hcellZ
    rcases List.mem_map.mp hcellZ with ⟨cell, hcell, rfl⟩
    rcases List.mem_map.mp hL3 with ⟨diag, hdiag, rfl⟩
    have hsc := hsub i (List.mem_range.mp hi)
    rw [sub_check, Bool.and_eq_true] at hsc
    have hmemco : pySorted (diag.map (arr_val n)) ∈ sub_coord (i + 1) n :=
      List.mem_map_of_mem _ hdiag
    have hnp := List.all_eq_true.mp hsc.2 _ hmemco
    rw [contains_iff_mem, sub_np] at hnp
    rcases List.mem_map.mp hnp with ⟨l0, hl0, heq⟩
    have hperm : (List.map (arr_val n) diag).Perm l0 := by
      have p1 := pySorted_perm (diag.map (arr_val n))
      have p2 := pySorted_perm l0
      exact ((heq ▸ p1).symm.trans p2)
    refine List.mem_map.mpr
      ⟨l0.map (gmerge d n (i + 1) comb cell), ?_, ?_⟩
    · refine List.mem_flatMap.mpr ⟨i, hi, ?_⟩
      simp only [get_lines_i_np, List.mem_flatMap]
      refine ⟨comb, hcomb, cell, hcell, ?_⟩
      rw [diagonals_slice_eq hcomb hcell]
      exact List.mem_map_of_mem _ hl0
    · rw [coord_line_merge hn hdiag]
      exact pySorted_eq_of_perm ((hperm.map _).symm)

/-- C10: for every `d` and `n` in `[1, 5]`, the numpy-based line enumerator
and the coordinate-based line enumerator agree as sets of unordered lines
(reading coordinate lines off the `arange` array), i.e.
`_lines_np_coord_check(d, n)` returns `True`. -/
theorem claim_C10 (d n : ℕ) (hd : d ∈ [1, 2, 3, 4, 5]) (hn : n ∈ [1, 2, 3, 4, 5]) :
    lines_np_coord_check d n = true := by
  have hn1 : 1 ≤ n := by fin_cases hn <;> decide
  refine check_of_sub d n hn1 ?_
  fin_cases hd <;> fin_cases hn <;> decide

/-- Witness for C10 at `d = 2`, `n = 2`. -/
theorem claim_C10_witness :
    2 ∈ [1, 2, 3, 4, 5] ∧ lines_np_coord_check 2 2 = true :=
  ⟨by decide, claim_C10 2 2 (by decide) (by decide)⟩
